import Mathlib

/-!
Verification of the DistributeCache repository (Go) against its
natural-language specification.

Each Go subsystem that the claims touch is shallowly embedded as executable
Lean definitions, translated from the source:

* `LRU`   — the size-bounded LRU cache (`lru.Cache`, src/unnamed/part_003,
  package `lru`).
* `Ring`  — the consistent-hash ring (`consistenthash.Map`,
  src/unnamed/part_003, package `consistenthash`).
* `Snow`  — the Snowflake ID generator (src/unnamed/part_003,
  package `distributecache`).
* `SF`    — the single-flight coordinator (`singleflight.Group`,
  src/singleflight/singleflight.go), as an interleaving transition system.
* `Rpc`   — the RPC server's request-reading loop (`Server.readRequest`,
  `Server.ServeCodec`, src/unnamed/part_001) and the client's option
  parsing (`parseOptions`, `Dial`/`XDial`, src/unnamed/part_004).
* `Reg`   — the registry's HTTP verb surface (`RPCRegistery.ServeHTTP`,
  src/unnamed/part_000).

Machine integers: Go `int64` fields are modelled as `Int` (with explicit
range side conditions where 64-bit overflow could matter), hash values
(`uint32`) as `Nat` below `2 ^ 32`, and byte lengths as `Nat`.
Go `len(s)` on a string is the UTF-8 byte count, i.e. `String.utf8ByteSize`.
-/

namespace DCache

/-! ## LRU cache (package `lru`, src/unnamed/part_003 lines 168-261)

`lru.Cache` holds `maxBytes`, `nbytes` (both `int64`), a doubly-linked
recency list `ll` and a key-indexed map into it.  The map is derived data
(its keys are exactly the keys on the list), so the embedding keeps one
association list `ll`, front = most recently used, back = oldest.  Values
implement `Value` with a `Len() int` method; the embedding is parametric in
the value type `V` together with its length measure `vlen`.  The `OnEvicted`
callback only observes evictions and never mutates the cache, so it is
dropped from the state. -/

namespace LRU

structure Cache (V : Type) where
  maxBytes : Int
  nbytes   : Int
  ll       : List (String × V)
  deriving Repr, DecidableEq

/-- Bytes charged to the budget for one entry: `len(key) + value.Len()`. -/
def charge {V : Type} (vlen : V → Nat) (e : String × V) : Nat := e.1.utf8ByteSize + vlen e.2

/-- Sum of the byte charges of the stored entries. -/
def sumBytes {V : Type} (vlen : V → Nat) (ll : List (String × V)) : Nat := (ll.map (charge vlen)).sum

/-- `lru.New(maxBytes, onEvicted)`. -/
def lruNew {V : Type} (maxBytes : Int) : Cache V := ⟨maxBytes, 0, []⟩

/-- `Cache.RemoveOldest`: drop the back (oldest) element, decrement
`nbytes` by its charge; no-op on an empty list. -/
def removeOldest {V : Type} (vlen : V → Nat) (c : Cache V) : Cache V :=
  match c.ll.getLast? with
  | none   => c
  | some e => { c with ll := c.ll.dropLast
                       nbytes := c.nbytes - (charge vlen e : Int) }

/-- Guard of the eviction loop `for c.maxBytes != 0 && c.maxBytes < c.nbytes`. -/
def evictGuard {V : Type} (c : Cache V) : Prop := c.maxBytes ≠ 0 ∧ c.maxBytes < c.nbytes

instance {V : Type} (c : Cache V) : Decidable (evictGuard c) := by
  unfold evictGuard; infer_instance

/-- The eviction loop, fuelled.  Each Go iteration calls `RemoveOldest`,
which strictly shortens a non-empty list, so `c.ll.length` fuel reaches the
loop exit on every state Go terminates on.  (On a state with an empty list
whose guard still holds — possible only for `maxBytes < 0`, which no claim
concerns — Go spins forever; the model returns the state unchanged.) -/
def evictLoopFuel {V : Type} (vlen : V → Nat) : Nat → Cache V → Cache V
  | 0, c => c
  | n + 1, c => if evictGuard c then evictLoopFuel vlen n (removeOldest vlen c) else c

/-- The eviction loop of `Cache.Add`. -/
def evictLoop {V : Type} (vlen : V → Nat) (c : Cache V) : Cache V := evictLoopFuel vlen c.ll.length c

/-- `Cache.Get`: on a hit, move the entry to the front and return its value. -/
def lruGet {V : Type} (c : Cache V) (key : String) : Option V × Cache V :=
  match c.ll.find? (fun e => e.1 == key) with
  | some e => (some e.2, { c with ll := e :: c.ll.eraseP (fun x => x.1 == key) })
  | none   => (none, c)

/-- `Cache.Add`: replace-and-promote on a present key (charging the length
delta), insert at the front otherwise (charging the full entry), then run
the eviction loop.  The Go source runs the loop both inside the absent
branch and once more after the `if`/`else`; the model keeps both runs. -/
def lruAdd {V : Type} (vlen : V → Nat) (c : Cache V) (key : String) (value : V) : Cache V :=
  match c.ll.find? (fun e => e.1 == key) with
  | some e =>
      evictLoop vlen
        { c with ll := (key, value) :: c.ll.eraseP (fun x => x.1 == key)
                 nbytes := c.nbytes + (vlen value : Int) - (vlen e.2 : Int) }
  | none =>
      evictLoop vlen (evictLoop vlen
        { c with ll := (key, value) :: c.ll
                 nbytes := c.nbytes + (charge vlen (key, value) : Int) })

/-- `Cache.Delete`: remove a present key and decrement `nbytes`;
`errors.New("key not found")` otherwise. -/
def lruDelete {V : Type} (vlen : V → Nat) (c : Cache V) (key : String) : Except String (Cache V) :=
  match c.ll.find? (fun e => e.1 == key) with
  | some e => .ok { c with ll := c.ll.eraseP (fun x => x.1 == key)
                           nbytes := c.nbytes - (charge vlen e : Int) }
  | none   => .error "key not found"

/-- `Cache.Len`. -/
def lruLen {V : Type} (c : Cache V) : Nat := c.ll.length

/-- One operation of the claimed operation sequences. -/
inductive LruOp (V : Type) where
  | add (key : String) (value : V)
  | get (key : String)
  | del (key : String)

/-- State effect of one operation (`Delete` on an absent key leaves the
state unchanged and reports the error, which the state fold discards). -/
def applyOp {V : Type} (vlen : V → Nat) (c : Cache V) : LruOp V → Cache V
  | .add k v => lruAdd vlen c k v
  | .get k   => (lruGet c k).2
  | .del k   =>
    match lruDelete vlen c k with
    | .ok c'   => c'
    | .error _ => c

/-- Run an operation sequence on a cache freshly created with capacity `C`. -/
def runOps {V : Type} (vlen : V → Nat) (maxBytes : Int) (ops : List (LruOp V)) : Cache V :=
  ops.foldl (applyOp vlen) (lruNew maxBytes)

/-- Accounting consistency: `nbytes` equals the sum of the stored charges. -/
def consistent {V : Type} (vlen : V → Nat) (c : Cache V) : Prop := c.nbytes = (sumBytes vlen c.ll : Int)

end LRU

/-! ## Consistent-hash ring (package `consistenthash`, src/unnamed/part_003
lines 83-167)

`consistenthash.Map` holds an injected hash function (`crc32.ChecksumIEEE`
by default — the claims quantify over the function, so it stays a
parameter), the virtual-replica factor, the sorted slice `keys` of virtual
hashes (Go `[]int` holding `int(uint32)` values, hence naturals) and the
Go map `hashMap` from virtual hash to peer name.  The Go map is embedded
as an association list with overwrite-on-insert, which preserves the
last-writer-wins semantics of `m.hashMap[hash] = key`.
`sort.Search` / `sort.SearchInts` return the smallest index whose element
satisfies the (monotone, since `keys` is kept sorted) predicate, and the
list length when there is none — exactly `List.findIdx`. -/

namespace CHash

structure Map where
  hash     : String → Nat
  replicas : Nat
  keys     : List Nat
  hashMap  : List (Nat × String)

/-- Go map read `m[h]`; `none` models the missing-key case. -/
def mapLookup : List (Nat × String) → Nat → Option String
  | [], _ => none
  | (k, v) :: rest, h => if k = h then some v else mapLookup rest h

/-- Go map write `m[h] = v` (overwrites an existing entry). -/
def mapInsert : List (Nat × String) → Nat → String → List (Nat × String)
  | [], h, v => [(h, v)]
  | (k, w) :: rest, h, v =>
    if k = h then (h, v) :: rest else (k, w) :: mapInsert rest h v

/-- `consistenthash.New(replicas, fn)` (with `fn` always supplied;
Go substitutes `crc32.ChecksumIEEE` for `nil`). -/
def ringNew (replicas : Nat) (hash : String → Nat) : Map :=
  ⟨hash, replicas, [], []⟩

/-- One iteration of `Map.Add`'s loop: hash the numbered virtual-node name
`strconv.Itoa(i) + key`, append to `keys`, record the mapping. -/
def addVirtual (key : String) (m : Map) (i : Nat) : Map :=
  let h := m.hash (toString i ++ key)
  { m with keys := m.keys ++ [h], hashMap := mapInsert m.hashMap h key }

/-- `Map.Add(key)`: add `replicas` virtual nodes, then sort the ring. -/
def ringAdd (m : Map) (key : String) : Map :=
  let m' := (List.range m.replicas).foldl (addVirtual key) m
  { m' with keys := m'.keys.insertionSort (· ≤ ·) }

/-- `Map.Get(key)`: empty ring gives `""`; otherwise binary-search the
smallest virtual hash `≥ hash(key)` (wrapping via `idx % len`) and resolve
it through the map, where a missing map entry yields Go's zero string. -/
def ringGet (m : Map) (key : String) : String :=
  if m.keys.length = 0 then ""
  else
    let h := m.hash key
    let idx := m.keys.findIdx (fun k => h ≤ k)
    (mapLookup m.hashMap (m.keys.getD (idx % m.keys.length) 0)).getD ""

/-- One iteration of `Map.Remove`'s loop: recompute the virtual hash,
binary-search it, and if present delete that position from `keys` and the
hash's entry from the map. -/
def removeVirtual (key : String) (m : Map) (i : Nat) : Map :=
  let h := m.hash (toString i ++ key)
  let idx := m.keys.findIdx (fun k => h ≤ k)
  if idx < m.keys.length ∧ m.keys.getD idx 0 = h then
    { m with keys := m.keys.eraseIdx idx
             hashMap := m.hashMap.filter (fun e => e.1 ≠ h) }
  else m

/-- `Map.Remove(key)`. -/
def ringRemove (m : Map) (key : String) : Map :=
  (List.range m.replicas).foldl (removeVirtual key) m

/-- A ring built by adding each peer of `peers` once to a fresh ring. -/
def ringOfPeers (replicas : Nat) (hash : String → Nat) (peers : List String) : Map :=
  peers.foldl ringAdd (ringNew replicas hash)

end CHash

/-! ## Snowflake ID generator (package `distributecache`,
src/unnamed/part_003 lines 1-82)

All Go fields are `int64`, modelled as `Int`.  The bit-assembly
`((timestamp - epoch) << 22) | (nodeID << 12) | sequence` is embedded
through `Nat` shift/or on the `toNat` images; this coincides with Go's
`int64` semantics whenever `epoch ≤ timestamp < epoch + 2 ^ 41`,
`0 ≤ nodeID` and `0 ≤ sequence` (no 64-bit overflow, no negative
operands), which the theorems assume.  `currentTimestamp()` readings enter
`generate` as explicit arguments: `t` is the reading at entry and `t'` the
first reading the busy-wait loop accepts when the sequence wraps (the
loop exits exactly when the reading exceeds `lastTimestamp`, so theorems
take `lastTimestamp < t'` as a hypothesis). -/

namespace Snow

def epoch : Int := 1719792000000

def maxNodeID : Int := 1023

def maxSequence : Int := 4095

structure Snowflake where
  lastTimestamp : Int
  nodeID        : Int
  sequence      : Int
  deriving Repr, DecidableEq

/-- `NewSnowflake(nodeID)`. -/
def newSnowflake (nodeID : Int) : Except String Snowflake :=
  if nodeID < 0 ∨ nodeID > maxNodeID then
    .error "node id must be between 0 and 1023"
  else
    .ok ⟨0, nodeID, 0⟩

/-- `((timestamp - epoch) << timestampShift) | (nodeID << nodeShift) | sequence`. -/
def encodeId (ts nodeID seq : Int) : Int :=
  ((((ts - epoch).toNat <<< 22) ||| (nodeID.toNat <<< 12)) ||| seq.toNat : Nat)

/-- `Snowflake.Generate` (see the section comment for the clock
arguments `t`, `t'`). -/
def generate (s : Snowflake) (t t' : Int) : Int × Snowflake :=
  if t = s.lastTimestamp then
    let seq : Int := ((s.sequence + 1).toNat &&& 4095 : Nat)
    if seq = 0 then
      (encodeId t' s.nodeID seq, ⟨t', s.nodeID, seq⟩)
    else
      (encodeId t s.nodeID seq, ⟨t, s.nodeID, seq⟩)
  else
    (encodeId t s.nodeID 0, ⟨t, s.nodeID, 0⟩)

/-- One FNV-1a step: `h ^= b; h *= 16777619` on `uint32`. -/
def fnv32aStep (h b : Nat) : Nat := ((h ^^^ b) * 16777619) % 2 ^ 32

/-- Standard UTF-8 encoding of one character (what Go's `[]byte(string)`
produces per rune); spelled out because the kernel cannot reduce
`String.toUTF8`. -/
def utf8Bytes (c : Char) : List Nat :=
  let n := c.toNat
  if n < 0x80 then [n]
  else if n < 0x800 then
    [0xC0 ||| (n >>> 6), 0x80 ||| (n &&& 0x3F)]
  else if n < 0x10000 then
    [0xE0 ||| (n >>> 12), 0x80 ||| ((n >>> 6) &&& 0x3F), 0x80 ||| (n &&& 0x3F)]
  else
    [0xF0 ||| (n >>> 18), 0x80 ||| ((n >>> 12) &&& 0x3F),
     0x80 ||| ((n >>> 6) &&& 0x3F), 0x80 ||| (n &&& 0x3F)]

/-- The UTF-8 bytes of a string, Go's `[]byte(s)`. -/
def strBytes (s : String) : List Nat := s.data.flatMap utf8Bytes

/-- `fnv.New32a(); h.Write(bytes); h.Sum32()` over the UTF-8 bytes. -/
def fnv1a32 (s : String) : Nat :=
  (strBytes s).foldl fnv32aStep 2166136261

/-- `getNodeID(ip, port)`: hash `ip + ":" + port` and reduce modulo
`maxNodeID` (Go `%` on the non-negative `int64(h.Sum32())`). -/
def getNodeID (ip port : String) : Int :=
  (fnv1a32 (ip ++ ":" ++ port) : Int) % maxNodeID

end Snow

/-! ## RPC server read loop and client option parsing
(src/unnamed/part_001 and src/unnamed/part_004)

`Server.ServeCodec` repeatedly calls `readRequest`; on a read error it
breaks when the returned request is nil (header-read failure — modelled as
the end of the input list — or unknown method), and otherwise sends a
response with `Header.Error` set and continues.  Successful requests are
dispatched (`handleRequest`) and answered with exactly one response each;
the dispatch outcome (Group operation results, handle-timeout errors) is
abstracted as a `handle` function from request header to response header.
Concurrent dispatch may reorder responses on the wire; the model lists
them in receive order, which no claim here depends on. -/

namespace Rpc

/-- Modelled from the spec: `codec.Header` (package `codec`, not under
src/) is `(ServiceMethod: string, Seq: uint64, Error: string)`. -/
structure Header where
  ServiceMethod : String
  Seq           : Nat
  Error         : String
  deriving Repr, DecidableEq

/-- One inbound wire message: its decoded header, and the outcome of
`cc.ReadBody` for its argument (`none` = body read succeeded). -/
structure RpcMsg where
  h       : Header
  bodyErr : Option String
  deriving Repr, DecidableEq

/-- The three `ServiceMethod` values `Server.readRequest` recognizes. -/
def knownMethods : List String := ["Group.Get", "Group.Insert", "Group.Delete"]

/-- `Server.readRequest` on one message: an unknown method returns Go's
`(nil, errors.New("rpc server: unknown method " + method))`, embedded as
`Except.error`; a known method returns the non-nil request together with
the body-read outcome. -/
def readRequest (msg : RpcMsg) : Except String (Header × Option String) :=
  if msg.h.ServiceMethod ∈ knownMethods then
    .ok (msg.h, msg.bodyErr)
  else
    .error ("rpc server: unknown method " ++ msg.h.ServiceMethod)

/-- `Server.ServeCodec`: the response headers written on one connection
for the given inbound messages.  `readRequest` error with nil request ⇒
break (the codec is closed); non-nil request with read error ⇒ error
response, continue; otherwise dispatch and respond. -/
def serveCodec (handle : Header → Header) : List RpcMsg → List Header
  | [] => []
  | msg :: rest =>
    match readRequest msg with
    | .error _ => []
    | .ok (h, some e) => { h with Error := e } :: serveCodec handle rest
    | .ok (h, none) => handle h :: serveCodec handle rest

/-- `Option` (src/unnamed/part_001 lines 19-24); durations in nanoseconds. -/
structure Opt where
  MagicNumber    : Int
  CodecType      : String
  ConnectTimeout : Int
  HandleTimeout  : Int
  deriving Repr, DecidableEq

/-- `const MagicNumber = 0x3bef5c`. -/
def MagicNumber : Int := 0x3bef5c

/-- Modelled from the spec: `codec.GobType` (package `codec`, not under
src/) is the non-empty type name of the default Gob codec; its exact
string is immaterial to the claims. -/
def GobType : String := "application/gob"

/-- `DefaultOption` (`ConnectTimeout: time.Second * 10` in nanoseconds). -/
def DefaultOption : Opt := ⟨MagicNumber, GobType, 10000000000, 0⟩

/-- `parseOptions(opts...)` (src/unnamed/part_004 lines 187-200); each Go
variadic element is a possibly-nil pointer.  Note the order of the Go
checks: a nil first element yields the default even when more options
follow. -/
def parseOptions : List (Option Opt) → Except String Opt
  | [] => .ok DefaultOption
  | none :: _ => .ok DefaultOption
  | some o :: rest =>
    if rest.length ≠ 0 then .error "number of options is more than 1"
    else .ok { o with
      MagicNumber := DefaultOption.MagicNumber
      CodecType := if o.CodecType = "" then DefaultOption.CodecType else o.CodecType }

/-- `Server.ServeConn`'s magic-number check: the connection proceeds iff
`opt.MagicNumber == MagicNumber`. -/
def serverAcceptsMagic (o : Opt) : Bool := o.MagicNumber == MagicNumber

end Rpc

/-! ## Registry HTTP surface (`RPCRegistery`, src/unnamed/part_000)

State: the expiry window `timeout` (Go `time.Duration`), the last-seen
table `timeMap` (Go `map[string]*time.Time`, embedded as an association
list with unique keys) and the consistent-hash mirror `peers`.  Time
instants are abstract integers; `s.Add(p.timeout).After(time.Now())`
becomes `now < lastSeen + timeout`.  Go map iteration order is arbitrary,
but `aliveServers` filters and then sorts, so the observable output is
order-independent.  `sort.Strings` sorts by byte order, which on UTF-8
agrees with Lean's `String` order. -/

namespace Reg

structure Registry where
  timeout : Int
  timeMap : List (String × Int)
  peers   : CHash.Map

structure HttpReq where
  method       : String
  serverHeader : String

/-- The response surface the claims observe: the written status code
(Go's implicit default is 200) and the `X-Geerpc-Servers` header. -/
structure HttpResp where
  status  : Nat
  servers : Option String

/-- `p.timeMap[addr]` (nil pointer ⇒ `none`). -/
def tmLookup : List (String × Int) → String → Option Int
  | [], _ => none
  | (k, v) :: rest, a => if k = a then some v else tmLookup rest a

/-- `*s = time.Now()`: refresh the stored instant in place. -/
def tmUpdate : List (String × Int) → String → Int → List (String × Int)
  | [], _, _ => []
  | (k, v) :: rest, a, t => if k = a then (a, t) :: rest else (k, v) :: tmUpdate rest a t

/-- `putServer(addr)`: refresh the last-seen time if present, otherwise
`set(addr)` — add to the ring and record the current instant. -/
def putServer (r : Registry) (addr : String) (now : Int) : Registry :=
  match tmLookup r.timeMap addr with
  | some _ => { r with timeMap := tmUpdate r.timeMap addr now }
  | none   => { r with peers := CHash.ringAdd r.peers addr
                       timeMap := r.timeMap ++ [(addr, now)] }

/-- The liveness test of `aliveServers`:
`p.timeout == 0 || s.Add(p.timeout).After(time.Now())`. -/
def aliveFilter (timeout now : Int) (e : String × Int) : Bool :=
  timeout == 0 || now < e.2 + timeout

/-- `aliveServers()`: the sorted list of live peers, with expired entries
reaped from the table and the ring as a side effect. -/
def aliveServers (r : Registry) (now : Int) : List String × Registry :=
  let alive := (r.timeMap.filter (aliveFilter r.timeout now)).map (fun e => e.1)
  let expired := (r.timeMap.filter (fun e => ¬ aliveFilter r.timeout now e)).map
    (fun e => e.1)
  (alive.insertionSort (· ≤ ·),
   { r with timeMap := r.timeMap.filter (aliveFilter r.timeout now)
            peers := expired.foldl CHash.ringRemove r.peers })

/-- `RPCRegistery.ServeHTTP`. -/
def serveHTTP (r : Registry) (req : HttpReq) (now : Int) : Registry × HttpResp :=
  if req.method = "GET" then
    let res := aliveServers r now
    (res.2, ⟨200, some (String.intercalate "," res.1)⟩)
  else if req.method = "POST" then
    if req.serverHeader = "" then (r, ⟨500, none⟩)
    else (putServer r req.serverHeader now, ⟨200, none⟩)
  else if req.method = "DELETE" then
    if req.serverHeader = "" then (r, ⟨500, none⟩)
    else ({ r with timeMap := r.timeMap.filter (fun e => e.1 ≠ req.serverHeader)
                   peers := CHash.ringRemove r.peers req.serverHeader },
          ⟨200, none⟩)
  else (r, ⟨405, none⟩)

end Reg

/-! ## Single flight (`singleflight.Group.Do`, src/singleflight/singleflight.go)

`Do(key, fn)` for one fixed key, embedded as a small-step transition
system over `N` caller threads.  The mutex makes the lock-protected
regions atomic, so each thread's execution of `Do` decomposes into these
atomic events:

* `enter i` — lines 28–42: lock; look `key` up in `g.m`; if a call `c` is
  in flight become a waiter on `c` (`c.wg.Wait()`), otherwise create a
  fresh call, `wg.Add(1)`, store it in `g.m`, and become its holder;
  unlock.
* `exec i`  — lines 45–46: the holder runs `fn()` and publishes
  `(c.val, c.err)` via `c.wg.Done()`.
* `del i`   — lines 48–50: lock; `delete(g.m, key)`; unlock.
* `ret i`   — line 52 for the holder; lines 35–36 for a waiter, whose
  `wg.Wait()` only returns after the holder's `wg.Done` — hence the
  published-cell guard.

Call cells are numbered in creation order; the `j`-th thunk execution
publishes the observable value `j`, so "identical (value, error) pair"
becomes equality of the returned numbers.  A trace is any event list;
`step` returns `none` when the event is not enabled (blocked waiter,
wrong program counter), so `runTrace … = some s` ranges exactly over the
legal interleavings. -/

namespace SF

inductive TSt where
  | idle              -- has not yet entered Do
  | run (cid : Nat)   -- holder of call `cid`, inside fn()
  | post (cid : Nat)  -- holder after publishing, before delete(g.m, key)
  | retp (cid : Nat)  -- holder after the delete, about to return
  | wait (cid : Nat)  -- waiter blocked on call `cid`
  | done (v : Nat)    -- returned with observed value `v`
  deriving Repr, DecidableEq

structure SFState where
  inflight  : Option Nat        -- g.m[key]: the in-flight call's number
  cells     : List (Option Nat) -- cell `c` holds `some v` once published
  execCount : Nat               -- number of thunk executions so far
  threads   : List TSt
  deriving Repr, DecidableEq

inductive Ev where
  | enter (i : Nat)
  | exec (i : Nat)
  | del (i : Nat)
  | ret (i : Nat)
  deriving Repr, DecidableEq

def step (s : SFState) : Ev → Option SFState
  | .enter i =>
    match s.threads[i]? with
    | some .idle =>
      match s.inflight with
      | some c => some { s with threads := s.threads.set i (.wait c) }
      | none => some { s with
        inflight := some s.cells.length
        cells := s.cells ++ [none]
        threads := s.threads.set i (.run s.cells.length) }
    | _ => none
  | .exec i =>
    match s.threads[i]? with
    | some (.run c) => some { s with
        cells := s.cells.set c (some s.execCount)
        execCount := s.execCount + 1
        threads := s.threads.set i (.post c) }
    | _ => none
  | .del i =>
    match s.threads[i]? with
    | some (.post c) => some { s with
        inflight := none
        threads := s.threads.set i (.retp c) }
    | _ => none
  | .ret i =>
    match s.threads[i]? with
    | some (.retp c) =>
      match s.cells[c]? with
      | some (some v) => some { s with threads := s.threads.set i (.done v) }
      | _ => none
    | some (.wait c) =>
      match s.cells[c]? with
      | some (some v) => some { s with threads := s.threads.set i (.done v) }
      | _ => none
    | _ => none

def runTrace (s : SFState) : List Ev → Option SFState
  | [] => some s
  | e :: es =>
    match step s e with
    | some s' => runTrace s' es
    | none => none

/-- `N` callers, none having entered `Do` yet, no call in flight. -/
def init (N : Nat) : SFState := ⟨none, [], 0, List.replicate N .idle⟩

/-- At most one holder executing the thunk of call 0. -/
def uniqueRun (ts : List TSt) : Prop :=
  ∀ i j : Nat, ts[i]? = some (TSt.run 0) → ts[j]? = some (TSt.run 0) → i = j

/-- Generation not yet started: key cold, nothing executed. -/
def InvA (s : SFState) : Prop :=
  s.inflight = none ∧ s.cells = [] ∧ s.execCount = 0
    ∧ ∀ st ∈ s.threads, st = TSt.idle

/-- Call 0 in flight, thunk not yet executed: one holder runs it, every
other caller is idle or waits on call 0. -/
def InvB1 (s : SFState) : Prop :=
  s.inflight = some 0 ∧ s.cells = [none] ∧ s.execCount = 0
    ∧ (∀ st ∈ s.threads, st = TSt.idle ∨ st = TSt.run 0 ∨ st = TSt.wait 0)
    ∧ uniqueRun s.threads

/-- Call 0 in flight and published after the single execution; the holder
has not deleted the marker yet. -/
def InvB2 (s : SFState) : Prop :=
  s.inflight = some 0 ∧ s.cells = [some 0] ∧ s.execCount = 1
    ∧ (∀ st ∈ s.threads,
        st = TSt.idle ∨ st = TSt.post 0 ∨ st = TSt.wait 0 ∨ st = TSt.done 0)
    ∧ TSt.post 0 ∈ s.threads

/-- Marker removed after the single execution; stragglers drain. -/
def InvC (s : SFState) : Prop :=
  s.inflight = none ∧ s.cells = [some 0] ∧ s.execCount = 1
    ∧ ∀ st ∈ s.threads, st = TSt.idle ∨ st = TSt.wait 0 ∨ st = TSt.post 0
        ∨ st = TSt.retp 0 ∨ st = TSt.done 0

/-- Invariant while no `del` has happened (the enter phase of one
generation). -/
def Inv1 (s : SFState) : Prop := InvA s ∨ InvB1 s ∨ InvB2 s

/-- Invariant once no further `enter` happens (the drain phase). -/
def Inv2 (s : SFState) : Prop := Inv1 s ∨ InvC s

end SF

/-! # Lemmas and claim theorems -/

namespace LRU

theorem sumBytes_cons {V : Type} (vlen : V → Nat) (e : String × V) (l : List (String × V)) :
    sumBytes vlen (e :: l) = charge vlen e + sumBytes vlen l := by
  simp [sumBytes]

theorem sumBytes_append {V : Type} (vlen : V → Nat) (l₁ l₂ : List (String × V)) :
    sumBytes vlen (l₁ ++ l₂) = sumBytes vlen l₁ + sumBytes vlen l₂ := by
  simp [sumBytes]

theorem charge_le_sumBytes {V : Type} (vlen : V → Nat) :
    ∀ (l : List (String × V)) (e : String × V), e ∈ l → charge vlen e ≤ sumBytes vlen l
  | x :: xs, e, h => by
    rcases List.mem_cons.mp h with rfl | h'
    · rw [sumBytes_cons]; exact Nat.le_add_right _ _
    · rw [sumBytes_cons]
      exact Nat.le_trans (charge_le_sumBytes vlen xs e h') (Nat.le_add_left _ _)

theorem sumBytes_eraseP {V : Type} (vlen : V → Nat) (p : String × V → Bool) :
    ∀ (l : List (String × V)) (e : String × V), l.find? p = some e →
      (sumBytes vlen (l.eraseP p) : Int) = (sumBytes vlen l : Int) - (charge vlen e : Int)
  | [], e, h => by simp [List.find?] at h
  | x :: xs, e, h => by
    by_cases hx : p x
    · rw [List.find?_cons_of_pos _ hx, Option.some_inj] at h
      subst h
      rw [List.eraseP_cons_of_pos hx, sumBytes_cons]
      push_cast; ring
    · rw [List.find?_cons_of_neg _ hx] at h
      rw [List.eraseP_cons_of_neg hx, sumBytes_cons, sumBytes_cons,
        Nat.cast_add, Nat.cast_add, sumBytes_eraseP vlen p xs e h]
      ring

theorem sumBytes_dropLast {V : Type} (vlen : V → Nat) (l : List (String × V))
    (e : String × V) (h : l.getLast? = some e) :
    (sumBytes vlen l.dropLast : Int) = (sumBytes vlen l : Int) - (charge vlen e : Int) := by
  have hsplit : l.dropLast ++ [e] = l := List.dropLast_append_getLast? e h
  have happ : sumBytes vlen l = sumBytes vlen l.dropLast + charge vlen e := by
    conv_lhs => rw [← hsplit]
    rw [sumBytes_append, sumBytes_cons]
    simp [sumBytes]
  rw [happ]
  push_cast
  ring

theorem removeOldest_maxBytes {V : Type} (vlen : V → Nat) (c : Cache V) :
    (removeOldest vlen c).maxBytes = c.maxBytes := by
  unfold removeOldest
  cases c.ll.getLast? <;> rfl

theorem removeOldest_consistent {V : Type} (vlen : V → Nat) (c : Cache V)
    (h : consistent vlen c) : consistent vlen (removeOldest vlen c) := by
  unfold removeOldest
  cases hg : c.ll.getLast? with
  | none => exact h
  | some e =>
    unfold consistent at h ⊢
    simp only
    rw [sumBytes_dropLast vlen c.ll e hg, h]

theorem removeOldest_length_le {V : Type} (vlen : V → Nat) (c : Cache V) :
    (removeOldest vlen c).ll.length ≤ c.ll.length := by
  unfold removeOldest
  cases c.ll.getLast? with
  | none => exact Nat.le_refl _
  | some e => simp

theorem removeOldest_length_lt {V : Type} (vlen : V → Nat) (c : Cache V)
    (h : c.ll ≠ []) : (removeOldest vlen c).ll.length < c.ll.length := by
  unfold removeOldest
  cases hg : c.ll.getLast? with
  | none => exact absurd (List.getLast?_eq_none_iff.mp hg) h
  | some e =>
    simp only [List.length_dropLast]
    have : 0 < c.ll.length := List.length_pos.mpr h
    omega

theorem evictLoopFuel_maxBytes {V : Type} (vlen : V → Nat) :
    ∀ (n : Nat) (c : Cache V), (evictLoopFuel vlen n c).maxBytes = c.maxBytes
  | 0, _ => rfl
  | n + 1, c => by
    unfold evictLoopFuel
    split
    · rw [evictLoopFuel_maxBytes vlen n, removeOldest_maxBytes]
    · rfl

theorem evictLoopFuel_consistent {V : Type} (vlen : V → Nat) :
    ∀ (n : Nat) (c : Cache V), consistent vlen c → consistent vlen (evictLoopFuel vlen n c)
  | 0, _, h => h
  | n + 1, c, h => by
    unfold evictLoopFuel
    split
    · exact evictLoopFuel_consistent vlen n _ (removeOldest_consistent vlen c h)
    · exact h

theorem evictLoopFuel_post {V : Type} (vlen : V → Nat) :
    ∀ (n : Nat) (c : Cache V), c.ll.length ≤ n →
      ¬ evictGuard (evictLoopFuel vlen n c) ∨ (evictLoopFuel vlen n c).ll = []
  | 0, c, h => Or.inr (List.length_eq_zero.mp (Nat.le_zero.mp h))
  | n + 1, c, h => by
    unfold evictLoopFuel
    split
    · apply evictLoopFuel_post vlen n
      by_cases hll : c.ll = []
      · have h0 : c.ll.length = 0 := by rw [hll]; rfl
        have : (removeOldest vlen c).ll.length ≤ c.ll.length := removeOldest_length_le vlen c
        omega
      · have := removeOldest_length_lt vlen c hll
        omega
    · exact Or.inl (by assumption)

theorem evictLoopFuel_take {V : Type} (vlen : V → Nat) :
    ∀ (n : Nat) (c : Cache V), ∃ k, (evictLoopFuel vlen n c).ll = c.ll.take k
  | 0, c => ⟨c.ll.length, (List.take_length _).symm⟩
  | n + 1, c => by
    unfold evictLoopFuel
    split
    · obtain ⟨k, hk⟩ := evictLoopFuel_take vlen n (removeOldest vlen c)
      rw [hk]
      unfold removeOldest
      cases hg : c.ll.getLast? with
      | none =>
        rw [List.getLast?_eq_none_iff.mp hg]
        exact ⟨0, by simp⟩
      | some e =>
        refine ⟨min k (c.ll.length - 1), ?_⟩
        simp only [List.dropLast_eq_take, List.take_take]
    · exact ⟨c.ll.length, (List.take_length _).symm⟩

theorem evictLoop_maxBytes {V : Type} (vlen : V → Nat) (c : Cache V) :
    (evictLoop vlen c).maxBytes = c.maxBytes :=
  evictLoopFuel_maxBytes vlen _ c

theorem evictLoop_consistent {V : Type} (vlen : V → Nat) (c : Cache V)
    (h : consistent vlen c) : consistent vlen (evictLoop vlen c) :=
  evictLoopFuel_consistent vlen _ c h

theorem evictLoop_post {V : Type} (vlen : V → Nat) (c : Cache V) :
    ¬ evictGuard (evictLoop vlen c) ∨ (evictLoop vlen c).ll = [] :=
  evictLoopFuel_post vlen _ c (Nat.le_refl _)

theorem evictLoop_take {V : Type} (vlen : V → Nat) (c : Cache V) :
    ∃ k, (evictLoop vlen c).ll = c.ll.take k :=
  evictLoopFuel_take vlen _ c

/-- After the eviction loop, a consistent cache with positive capacity is
within budget. -/
theorem evictLoop_bound {V : Type} (vlen : V → Nat) (c : Cache V)
    (hcons : consistent vlen c) (hpos : 0 < c.maxBytes) :
    (evictLoop vlen c).nbytes ≤ c.maxBytes := by
  rcases evictLoop_post vlen c with hg | he
  · unfold evictGuard at hg
    rw [evictLoop_maxBytes vlen c] at hg
    push_neg at hg
    exact hg (by omega)
  · have hc := evictLoop_consistent vlen c hcons
    unfold consistent at hc
    rw [he] at hc
    simp [sumBytes] at hc
    omega

/-- If the front entry alone exceeds a positive capacity, the eviction loop
drains the whole store. -/
theorem evictLoop_drain {V : Type} (vlen : V → Nat) (c : Cache V)
    (hcons : consistent vlen c) (hpos : 0 < c.maxBytes)
    (e : String × V) (tail : List (String × V)) (hll : c.ll = e :: tail)
    (hbig : c.maxBytes < (charge vlen e : Int)) :
    (evictLoop vlen c).ll = [] ∧ (evictLoop vlen c).nbytes = 0 := by
  have hcons' := evictLoop_consistent vlen c hcons
  have hmax := evictLoop_maxBytes vlen c
  have hempty : (evictLoop vlen c).ll = [] := by
    by_contra hne
    obtain ⟨k, hk⟩ := evictLoop_take vlen c
    rw [hll] at hk
    have hmem : e ∈ (evictLoop vlen c).ll := by
      cases k with
      | zero => rw [hk] at hne; simp at hne
      | succ k' => rw [hk]; simp [List.take_succ_cons]
    have hle : charge vlen e ≤ sumBytes vlen (evictLoop vlen c).ll :=
      charge_le_sumBytes vlen _ e hmem
    rcases evictLoop_post vlen c with hg | hemp
    · apply hg
      unfold consistent at hcons'
      refine ⟨by rw [hmax]; omega, ?_⟩
      rw [hmax, hcons']
      have : (charge vlen e : Int) ≤ (sumBytes vlen (evictLoop vlen c).ll : Int) := by
        exact_mod_cast hle
      omega
    · exact hne hemp
  refine ⟨hempty, ?_⟩
  unfold consistent at hcons'
  rw [hempty] at hcons'
  simpa [sumBytes] using hcons'

theorem key_eq_of_find? {V : Type} {l : List (String × V)} {key : String}
    {e : String × V} (h : l.find? (fun x => x.1 == key) = some e) : e.1 = key := by
  have := List.find?_some h
  exact eq_of_beq this

/-- Accounting is preserved by the present-key branch of `Add`
(before its eviction loop). -/
theorem add_present_consistent {V : Type} (vlen : V → Nat) (c : Cache V)
    (key : String) (v : V) (e : String × V) (hcons : consistent vlen c)
    (hf : c.ll.find? (fun x => x.1 == key) = some e) :
    consistent vlen
      { c with ll := (key, v) :: c.ll.eraseP (fun x => x.1 == key)
               nbytes := c.nbytes + (vlen v : Int) - (vlen e.2 : Int) } := by
  unfold consistent at hcons ⊢
  simp only
  rw [sumBytes_cons, Nat.cast_add, sumBytes_eraseP vlen _ c.ll e hf, hcons]
  have hkey : e.1 = key := key_eq_of_find? hf
  unfold charge
  rw [← hkey]
  push_cast
  ring

/-- Accounting is preserved by the absent-key branch of `Add`
(before its eviction loops). -/
theorem add_absent_consistent {V : Type} (vlen : V → Nat) (c : Cache V)
    (key : String) (v : V) (hcons : consistent vlen c) :
    consistent vlen
      { c with ll := (key, v) :: c.ll
               nbytes := c.nbytes + (charge vlen (key, v) : Int) } := by
  unfold consistent at hcons ⊢
  simp only
  rw [sumBytes_cons, Nat.cast_add, hcons]
  ring

/-- If `maxBytes = 0`, the eviction loop never removes anything:
capacity enforcement is disabled. -/
theorem evictLoop_id_of_zero {V : Type} (vlen : V → Nat) (c : Cache V)
    (h0 : c.maxBytes = 0) : evictLoop vlen c = c := by
  unfold evictLoop
  cases hn : c.ll.length with
  | zero => rfl
  | succ n =>
    unfold evictLoopFuel
    rw [if_neg]
    intro hg
    exact hg.1 h0

/-- Every single LRU operation preserves the capacity invariant
(`maxBytes` untouched, accounting consistent, `nbytes` within a positive
budget). -/
theorem applyOp_inv {V : Type} (vlen : V → Nat) (C : Int) (hC : 0 < C)
    (c : Cache V) (op : LruOp V) (hmax : c.maxBytes = C)
    (hcons : consistent vlen c) (hb : c.nbytes ≤ C) :
    (applyOp vlen c op).maxBytes = C ∧ consistent vlen (applyOp vlen c op)
      ∧ (applyOp vlen c op).nbytes ≤ C := by
  cases op with
  | add k v =>
    simp only [applyOp]
    unfold lruAdd
    split
    next e hf =>
      have h1 := add_present_consistent vlen c k v e hcons hf
      refine ⟨by rw [evictLoop_maxBytes]; exact hmax, evictLoop_consistent vlen _ h1, ?_⟩
      have := evictLoop_bound vlen _ h1 (by simpa [hmax] using hC)
      simpa [hmax] using this
    next hf =>
      have h1 := add_absent_consistent vlen c k v hcons
      have h2 := evictLoop_consistent vlen _ h1
      refine ⟨by rw [evictLoop_maxBytes, evictLoop_maxBytes]; exact hmax,
        evictLoop_consistent vlen _ h2, ?_⟩
      have hm : (evictLoop vlen
          { c with ll := (k, v) :: c.ll
                   nbytes := c.nbytes + (charge vlen (k, v) : Int) }).maxBytes = C := by
        rw [evictLoop_maxBytes]; exact hmax
      have := evictLoop_bound vlen _ h2 (by rw [hm]; exact hC)
      rw [hm] at this
      exact this
  | get k =>
    simp only [applyOp]
    unfold lruGet
    cases hf : c.ll.find? (fun e => e.1 == k) with
    | some e =>
      simp only [hf]
      refine ⟨hmax, ?_, hb⟩
      unfold consistent at hcons ⊢
      simp only
      rw [sumBytes_cons, Nat.cast_add, sumBytes_eraseP vlen _ c.ll e hf, hcons]
      ring
    | none =>
      simp only [hf]
      exact ⟨hmax, hcons, hb⟩
  | del k =>
    simp only [applyOp]
    unfold lruDelete
    cases hf : c.ll.find? (fun e => e.1 == k) with
    | some e =>
      simp only [hf]
      refine ⟨hmax, ?_, ?_⟩
      · unfold consistent at hcons ⊢
        simp only
        rw [sumBytes_eraseP vlen _ c.ll e hf, hcons]
      · have h0 : (0 : Int) ≤ (charge vlen e : Int) := Int.natCast_nonneg _
        omega
    | none =>
      simp only [hf]
      exact ⟨hmax, hcons, hb⟩

theorem foldl_inv {V : Type} (vlen : V → Nat) (C : Int) (hC : 0 < C) :
    ∀ (ops : List (LruOp V)) (c : Cache V), c.maxBytes = C → consistent vlen c →
      c.nbytes ≤ C →
      (ops.foldl (applyOp vlen) c).maxBytes = C
        ∧ consistent vlen (ops.foldl (applyOp vlen) c)
        ∧ (ops.foldl (applyOp vlen) c).nbytes ≤ C
  | [], c, hmax, hcons, hb => ⟨hmax, hcons, hb⟩
  | op :: ops, c, hmax, hcons, hb => by
    obtain ⟨h1, h2, h3⟩ := applyOp_inv vlen C hC c op hmax hcons hb
    exact foldl_inv vlen C hC ops (applyOp vlen c op) h1 h2 h3

theorem runOps_inv {V : Type} (vlen : V → Nat) (C : Int) (hC : 0 < C)
    (ops : List (LruOp V)) :
    (runOps vlen C ops).maxBytes = C ∧ consistent vlen (runOps vlen C ops)
      ∧ (runOps vlen C ops).nbytes ≤ C :=
  foldl_inv vlen C hC ops (lruNew C) rfl (by unfold consistent lruNew sumBytes; simp) (le_of_lt hC)

theorem evictLoop_of_empty {V : Type} (vlen : V → Nat) (c : Cache V)
    (h : c.ll = []) : evictLoop vlen c = c := by
  unfold evictLoop
  have h0 : c.ll.length = 0 := by rw [h]; rfl
  rw [h0]
  rfl

/-- C2: for every sequence of LRU operations (Add, Get, Delete) on a cache
created with capacity `C > 0`, at every quiescent point the sum over the
stored entries of `len(key) + value.Len()` is at most `C`; and with
`maxBytes = 0` the eviction loop is the identity, so capacity enforcement
is disabled and no eviction ever occurs. -/
theorem claim_lru_capacity {V : Type} (vlen : V → Nat) (C : Int)
    (ops : List (LruOp V)) :
    (0 < C → (sumBytes vlen (runOps vlen C ops).ll : Int) ≤ C)
    ∧ ∀ c : Cache V, c.maxBytes = 0 → evictLoop vlen c = c := by
  constructor
  · intro hC
    obtain ⟨hmax, hcons, hb⟩ := runOps_inv vlen C hC ops
    unfold consistent at hcons
    rw [← hcons]
    exact hb
  · exact fun c h0 => evictLoop_id_of_zero vlen c h0

theorem claim_lru_capacity_witness :
    ((sumBytes (fun n : Nat => n) (runOps (fun n : Nat => n) 3
        [LruOp.add "a" 1, LruOp.add "bb" 2, LruOp.get "a", LruOp.del "a"]).ll : Int) ≤ 3)
    ∧ evictLoop (fun n : Nat => n) (⟨0, 4, [("ab", 2)]⟩ : Cache Nat)
        = (⟨0, 4, [("ab", 2)]⟩ : Cache Nat) :=
  ⟨(claim_lru_capacity (fun n => n) 3
      [LruOp.add "a" 1, LruOp.add "bb" 2, LruOp.get "a", LruOp.del "a"]).1 (by norm_num),
   (claim_lru_capacity (fun n => n) 3 []).2 ⟨0, 4, [("ab", 2)]⟩ rfl⟩

/-- C5 counterexample: with capacity `C = 3` and a stored entry
`("a", len 1)` (charge 2), `Add("bb", len 2)` has charge `4 > 3`.  The
claim says the store then holds exactly the new entry `[("bb", 2)]`; the
code's eviction loop also evicts the freshly added entry and leaves the
store empty. -/
theorem claim_oversized_add_counterexample :
    (lruAdd (fun n : Nat => n) (lruAdd (fun n : Nat => n) (lruNew 3) "a" 1) "bb" 2).ll = []
    ∧ (lruAdd (fun n : Nat => n) (lruAdd (fun n : Nat => n) (lruNew 3) "a" 1) "bb" 2).ll
        ≠ [("bb", 2)] := by
  constructor
  · decide
  · decide

/-- C5 (amended): for an LRU with capacity `C > 0` (accounting-consistent
state), `Add(key, value)` with `len(key) + value.Len() > C` evicts every
previously stored entry and the newly added entry itself, leaving the
store empty with zero accounted bytes. -/
theorem claim_oversized_add_amended {V : Type} (vlen : V → Nat) (c : Cache V)
    (key : String) (v : V) (hcons : consistent vlen c) (hpos : 0 < c.maxBytes)
    (hover : c.maxBytes < (charge vlen (key, v) : Int)) :
    (lruAdd vlen c key v).ll = [] ∧ (lruAdd vlen c key v).nbytes = 0 := by
  unfold lruAdd
  cases hf : c.ll.find? (fun e => e.1 == key) with
  | some e =>
    simp only [hf]
    exact evictLoop_drain vlen _ (add_present_consistent vlen c key v e hcons hf)
      hpos (key, v) _ rfl hover
  | none =>
    simp only [hf]
    have hd := evictLoop_drain vlen _ (add_absent_consistent vlen c key v hcons)
      hpos (key, v) c.ll rfl hover
    rw [evictLoop_of_empty vlen _ hd.1]
    exact hd

theorem claim_oversized_add_amended_witness :
    (lruAdd (fun n : Nat => n) (⟨3, 2, [("a", 1)]⟩ : Cache Nat) "bb" 2).ll = []
    ∧ (lruAdd (fun n : Nat => n) (⟨3, 2, [("a", 1)]⟩ : Cache Nat) "bb" 2).nbytes = 0 :=
  claim_oversized_add_amended (fun n => n) ⟨3, 2, [("a", 1)]⟩ "bb" 2
    (by unfold consistent; decide) (by decide) (by decide)

end LRU

namespace CHash

/-- All peers named by the map. -/
def goodMap (mp : List (Nat × String)) (P : List String) : Prop :=
  ∀ h p, mapLookup mp h = some p → p ∈ P

/-- Every virtual hash on the ring resolves through the map. -/
def covered (m : Map) : Prop :=
  ∀ h ∈ m.keys, ∃ p, mapLookup m.hashMap h = some p

theorem mapLookup_mapInsert_self (mp : List (Nat × String)) (h : Nat) (v : String) :
    mapLookup (mapInsert mp h v) h = some v := by
  induction mp with
  | nil => simp [mapInsert, mapLookup]
  | cons e rest ih =>
    unfold mapInsert
    by_cases he : e.1 = h
    · simp [he, mapLookup]
    · simp only [he, if_false]
      unfold mapLookup
      simp [he, ih]

theorem mapLookup_mapInsert_ne (mp : List (Nat × String)) (h h' : Nat) (v : String)
    (hne : h' ≠ h) : mapLookup (mapInsert mp h v) h' = mapLookup mp h' := by
  induction mp with
  | nil => simp [mapInsert, mapLookup, hne, Ne.symm hne]
  | cons e rest ih =>
    unfold mapInsert
    by_cases he : e.1 = h
    · unfold mapLookup
      simp [he, hne, Ne.symm hne]
    · simp only [he, if_false]
      unfold mapLookup
      by_cases he' : e.1 = h'
      · simp [he']
      · simp [he', ih]

theorem goodMap_mapInsert (mp : List (Nat × String)) (P : List String)
    (h : Nat) (v : String) (hg : goodMap mp P) (hv : v ∈ P) :
    goodMap (mapInsert mp h v) P := by
  intro h' p hp
  by_cases he : h' = h
  · subst he
    rw [mapLookup_mapInsert_self] at hp
    cases hp
    exact hv
  · rw [mapLookup_mapInsert_ne mp h h' v he] at hp
    exact hg h' p hp

theorem addVirtual_spec (key : String) (m : Map) (i : Nat) (P : List String)
    (hkey : key ∈ P) (hg : goodMap m.hashMap P) (hc : covered m) :
    (addVirtual key m i).replicas = m.replicas
      ∧ (addVirtual key m i).hash = m.hash
      ∧ (addVirtual key m i).keys.length = m.keys.length + 1
      ∧ goodMap (addVirtual key m i).hashMap P
      ∧ covered (addVirtual key m i) := by
  refine ⟨rfl, rfl, by simp [addVirtual], goodMap_mapInsert _ P _ key hg hkey, ?_⟩
  intro h hmem
  simp only [addVirtual, List.mem_append, List.mem_singleton] at hmem
  by_cases he : h = m.hash (toString i ++ key)
  · subst he
    exact ⟨key, mapLookup_mapInsert_self _ _ _⟩
  · rcases hmem with hmem | hmem
    · obtain ⟨p, hp⟩ := hc h hmem
      refine ⟨p, ?_⟩
      show mapLookup (mapInsert m.hashMap (m.hash (toString i ++ key)) key) h = some p
      rw [mapLookup_mapInsert_ne _ _ _ _ he]
      exact hp
    · exact absurd hmem he

theorem foldAddVirtual_spec (key : String) (P : List String) (hkey : key ∈ P) :
    ∀ (l : List Nat) (m : Map), goodMap m.hashMap P → covered m →
      ((l.foldl (addVirtual key) m).replicas = m.replicas
        ∧ (l.foldl (addVirtual key) m).hash = m.hash
        ∧ (l.foldl (addVirtual key) m).keys.length = m.keys.length + l.length
        ∧ goodMap (l.foldl (addVirtual key) m).hashMap P
        ∧ covered (l.foldl (addVirtual key) m))
  | [], m, hg, hc => ⟨rfl, rfl, rfl, hg, hc⟩
  | i :: l, m, hg, hc => by
    obtain ⟨h1, h2, h3, h4, h5⟩ := addVirtual_spec key m i P hkey hg hc
    obtain ⟨g1, g2, g3, g4, g5⟩ := foldAddVirtual_spec key P hkey l (addVirtual key m i) h4 h5
    simp only [List.foldl_cons, List.length_cons]
    exact ⟨by rw [g1, h1], by rw [g2, h2], by rw [g3, h3]; omega, g4, g5⟩

theorem ringAdd_spec (m : Map) (key : String) (P : List String)
    (hkey : key ∈ P) (hg : goodMap m.hashMap P) (hc : covered m) :
    (ringAdd m key).replicas = m.replicas
      ∧ (ringAdd m key).hash = m.hash
      ∧ (ringAdd m key).keys.length = m.keys.length + m.replicas
      ∧ goodMap (ringAdd m key).hashMap P
      ∧ covered (ringAdd m key) := by
  obtain ⟨h1, h2, h3, h4, h5⟩ :=
    foldAddVirtual_spec key P hkey (List.range m.replicas) m hg hc
  unfold ringAdd
  refine ⟨h1, h2, ?_, h4, ?_⟩
  · simp only
    rw [List.length_insertionSort, h3, List.length_range]
  · intro h hmem
    simp only at hmem
    rw [(List.perm_insertionSort (· ≤ ·) _).mem_iff] at hmem
    exact h5 h hmem

theorem foldRingAdd_spec (P : List String) :
    ∀ (ps : List String) (m : Map), (∀ p ∈ ps, p ∈ P) →
      goodMap m.hashMap P → covered m →
      ((ps.foldl ringAdd m).replicas = m.replicas
        ∧ (ps.foldl ringAdd m).keys.length
            = m.keys.length + m.replicas * ps.length
        ∧ goodMap (ps.foldl ringAdd m).hashMap P
        ∧ covered (ps.foldl ringAdd m))
  | [], m, _, hg, hc => ⟨rfl, by simp, hg, hc⟩
  | p :: ps, m, hps, hg, hc => by
    obtain ⟨h1, h2, h3, h4, h5⟩ :=
      ringAdd_spec m p P (hps p (List.mem_cons_self _ _)) hg hc
    obtain ⟨g1, g2, g3, g4⟩ := foldRingAdd_spec P ps (ringAdd m p)
      (fun q hq => hps q (List.mem_cons_of_mem _ hq)) h4 h5
    simp only [List.foldl_cons, List.length_cons]
    exact ⟨by rw [g1, h1], by rw [g2, h3, h1]; ring, g3, g4⟩

/-- On a non-empty ring whose map is total on its keys, `Get` returns a
peer recorded in the map. -/
theorem ringGet_mem (m : Map) (key : String) (P : List String)
    (hg : goodMap m.hashMap P) (hc : covered m) (hne : m.keys ≠ []) :
    ringGet m key ∈ P := by
  unfold ringGet
  have hlen : m.keys.length ≠ 0 := fun h => hne (List.length_eq_zero.mp h)
  rw [if_neg hlen]
  have hlt : (m.keys.findIdx (fun k => m.hash key ≤ k)) % m.keys.length
      < m.keys.length :=
    Nat.mod_lt _ (Nat.pos_of_ne_zero hlen)
  have hsel : m.keys.getD
      ((m.keys.findIdx (fun k => m.hash key ≤ k)) % m.keys.length) 0 ∈ m.keys := by
    rw [List.getD_eq_getElem?_getD, List.getElem?_eq_getElem hlt]
    exact List.getElem_mem _
  obtain ⟨p, hp⟩ := hc _ hsel
  simp only [hp, Option.getD_some]
  exact hg _ p hp

/-- C3 counterexample: the claim fails as universally stated.
With replica factor `R = 0` the ordered sequence is empty, so `Get` on the
non-empty peer set `{"a"}` returns `""`, not a member of `P`; and with
`R = 1` and the (degenerate but distinct) peer set `{""}`, `Get` returns
the empty string although `P` is non-empty, breaking the claimed
`Get = "" ↔ P = ∅`. -/
theorem claim_ring_basic_counterexample :
    (¬ ringGet (ringOfPeers 0 (fun s => s.utf8ByteSize) ["a"]) "k"
        ∈ (["a"] : List String))
    ∧ ringGet (ringOfPeers 1 (fun s => s.utf8ByteSize) [""]) "k" = ""
    ∧ ([""] : List String) ≠ [] :=
  ⟨by decide, by decide, by decide⟩

/-- C3 (amended): for every ring built with replica factor `R ≥ 1` by
adding a set `P` of distinct non-empty peer names once each: the ordered
hash sequence has exactly `R·|P|` elements; `Get(k)` returns a member of
`P` for every key whenever `P` is non-empty; and `Get(k)` returns the
empty string iff `P` is empty. -/
theorem claim_ring_basic_amended (replicas : Nat) (hash : String → Nat)
    (peers : List String) (k : String) (hR : 1 ≤ replicas)
    (hnd : peers.Nodup) (hne : ∀ p ∈ peers, p ≠ "") :
    (ringOfPeers replicas hash peers).keys.length = replicas * peers.length
    ∧ (peers ≠ [] → ringGet (ringOfPeers replicas hash peers) k ∈ peers)
    ∧ (ringGet (ringOfPeers replicas hash peers) k = "" ↔ peers = []) := by
  obtain ⟨hrep, hlen, hgood, hcov⟩ :=
    foldRingAdd_spec peers peers (ringNew replicas hash) (fun p hp => hp)
      (fun h p hp => by simp [ringNew, mapLookup] at hp)
      (fun h hm => by simp [ringNew] at hm)
  have hlen' : (ringOfPeers replicas hash peers).keys.length
      = replicas * peers.length := by
    simpa [ringOfPeers, ringNew] using hlen
  have hmem : peers ≠ [] → ringGet (ringOfPeers replicas hash peers) k ∈ peers := by
    intro hne'
    apply ringGet_mem _ _ peers hgood hcov
    intro hk
    have h0 : (ringOfPeers replicas hash peers).keys.length = 0 := by
      show (peers.foldl ringAdd (ringNew replicas hash)).keys.length = 0
      rw [hk]; rfl
    rw [hlen'] at h0
    rcases Nat.mul_eq_zero.mp h0 with h | h
    · omega
    · exact hne' (List.length_eq_zero.mp h)
  refine ⟨hlen', hmem, ?_, ?_⟩
  · intro hget
    by_contra hne'
    exact hne _ (hmem hne') hget
  · intro hp
    subst hp
    rfl

theorem claim_ring_basic_amended_witness :
    ((ringOfPeers 1 (fun s => s.utf8ByteSize) ["a", "b"]).keys.length = 1 * 2)
    ∧ ((["a", "b"] : List String) ≠ [] →
        ringGet (ringOfPeers 1 (fun s => s.utf8ByteSize) ["a", "b"]) "k"
          ∈ (["a", "b"] : List String))
    ∧ (ringGet (ringOfPeers 1 (fun s => s.utf8ByteSize) ["a", "b"]) "k" = ""
        ↔ (["a", "b"] : List String) = []) :=
  claim_ring_basic_amended 1 (fun s => s.utf8ByteSize) ["a", "b"] "k"
    (by decide) (by decide) (by decide)

/-- C6 counterexample: with replica factor 1 and the constant hash
function (every virtual hash collides), after `Add("A"); Add("B");
Remove("A")` the ring is non-empty but `Get` returns `""`, not the present
peer `"B"`: `Remove` deleted the shared map entry, breaking routing to B. -/
theorem claim_ring_remove_collision_counterexample :
    (ringRemove (ringAdd (ringAdd (ringNew 1 (fun _ => 0)) "A") "B") "A").keys ≠ []
    ∧ ringGet (ringRemove (ringAdd (ringAdd (ringNew 1 (fun _ => 0)) "A") "B") "A") "k" = ""
    ∧ ("" : String) ≠ "B" :=
  ⟨by decide, by decide, by decide⟩

/-- C6 (amended, exhibited at replica factor 1): if distinct peers `A`
and `B` collide on their virtual hash, then after `Add(A); Add(B);
Remove(A)` the ordered sequence still holds B's virtual hash, but
`Remove` deleted the shared map entry outright, so every subsequent `Get`
returns the empty string even though the ring is non-empty — routing to
`B` is broken rather than unaffected. -/
theorem claim_ring_remove_collision_amended (hash : String → Nat)
    (A B k : String) (hAB : A ≠ B)
    (hcol : hash ("0" ++ A) = hash ("0" ++ B)) :
    (ringRemove (ringAdd (ringAdd (ringNew 1 hash) A) B) A).keys
        = [hash ("0" ++ B)]
    ∧ ringGet (ringRemove (ringAdd (ringAdd (ringNew 1 hash) A) B) A) k = "" := by
  have t0 : toString (0 : Nat) = "0" := rfl
  have hr1 : List.range 1 = [0] := rfl
  have e1 : ringAdd (ringNew 1 hash) A
      = ⟨hash, 1, [hash ("0" ++ A)], [(hash ("0" ++ A), A)]⟩ := by
    simp [ringAdd, ringNew, addVirtual, hr1, t0,
      List.insertionSort, List.orderedInsert, mapInsert]
  have e2 : ringAdd (⟨hash, 1, [hash ("0" ++ A)], [(hash ("0" ++ A), A)]⟩ : Map) B
      = ⟨hash, 1, [hash ("0" ++ A), hash ("0" ++ A)], [(hash ("0" ++ A), B)]⟩ := by
    simp [ringAdd, addVirtual, hr1, t0, ← hcol,
      List.insertionSort, List.orderedInsert, mapInsert]
  have e3 : ringRemove
        (⟨hash, 1, [hash ("0" ++ A), hash ("0" ++ A)], [(hash ("0" ++ A), B)]⟩ : Map) A
      = ⟨hash, 1, [hash ("0" ++ A)], []⟩ := by
    simp [ringRemove, removeVirtual, hr1, t0, List.findIdx_cons,
      List.eraseIdx, List.filter]
  have e4 : ringGet (⟨hash, 1, [hash ("0" ++ A)], []⟩ : Map) k = "" := by
    simp [ringGet, Nat.mod_one, mapLookup]
  rw [e1, e2, e3, e4, ← hcol]
  exact ⟨rfl, rfl⟩

theorem claim_ring_remove_collision_amended_witness :
    (ringRemove (ringAdd (ringAdd (ringNew 1 (fun _ => 0)) "A") "B") "A").keys = [0]
    ∧ ringGet (ringRemove (ringAdd (ringAdd (ringNew 1 (fun _ => 0)) "A") "B") "A") "k" = "" :=
  claim_ring_remove_collision_amended (fun _ => 0) "A" "B" "k" (by decide) rfl

end CHash

namespace Snow

/-- Or-ing the three disjoint bit fields is plain addition. -/
theorem encode_shift_eq (a b c : Nat) (hb : b < 2 ^ 10) (hc : c < 2 ^ 12) :
    ((a <<< 22) ||| (b <<< 12)) ||| c = a * 2 ^ 22 + b * 2 ^ 12 + c := by
  rw [Nat.shiftLeft_eq, Nat.shiftLeft_eq]
  have h1 : b * 2 ^ 12 < 2 ^ 22 := by
    calc b * 2 ^ 12 < 2 ^ 10 * 2 ^ 12 := by
          exact Nat.mul_lt_mul_of_lt_of_le hb (Nat.le_refl _) (by norm_num)
      _ = 2 ^ 22 := by norm_num
  have e1 : a * 2 ^ 22 ||| b * 2 ^ 12 = a * 2 ^ 22 + b * 2 ^ 12 := by
    calc a * 2 ^ 22 ||| b * 2 ^ 12 = 2 ^ 22 * a ||| b * 2 ^ 12 := by
          rw [Nat.mul_comm]
      _ = 2 ^ 22 * a + b * 2 ^ 12 := (Nat.mul_add_lt_is_or h1 a).symm
      _ = a * 2 ^ 22 + b * 2 ^ 12 := by ring
  rw [e1]
  calc a * 2 ^ 22 + b * 2 ^ 12 ||| c
      = 2 ^ 12 * (a * 2 ^ 10 + b) ||| c := by ring_nf
    _ = 2 ^ 12 * (a * 2 ^ 10 + b) + c := (Nat.mul_add_lt_is_or hc _).symm
    _ = a * 2 ^ 22 + b * 2 ^ 12 + c := by ring

/-- In range, the bit assembly equals the arithmetic form. -/
theorem encodeId_eq (ts n q : Int) (h1 : epoch ≤ ts) (h2 : 0 ≤ n)
    (h3 : n ≤ 1023) (h4 : 0 ≤ q) (h5 : q ≤ 4095) :
    encodeId ts n q = (ts - epoch) * 2 ^ 22 + n * 2 ^ 12 + q := by
  unfold encodeId
  rw [encode_shift_eq (ts - epoch).toNat n.toNat q.toNat (by omega) (by omega)]
  push_cast
  omega

/-- One `Generate` call: on a serialized generator with well-formed state
and a clock that has not gone backwards (`lastTimestamp ≤ t`, and the
busy-wait exit `lastTimestamp < t'`), the produced ID is strictly above
the encoding of the pre-state, equals the encoding of the post-state, and
the post-state is again well-formed and no older. -/
theorem generate_step (s : Snowflake) (t t' : Int)
    (hn0 : 0 ≤ s.nodeID) (hn1 : s.nodeID ≤ 1023)
    (hq0 : 0 ≤ s.sequence) (hq1 : s.sequence ≤ 4095)
    (he : epoch ≤ s.lastTimestamp)
    (ht : s.lastTimestamp ≤ t) (ht' : s.lastTimestamp < t') :
    encodeId s.lastTimestamp s.nodeID s.sequence < (generate s t t').1
    ∧ (generate s t t').1
        = encodeId (generate s t t').2.lastTimestamp (generate s t t').2.nodeID
            (generate s t t').2.sequence
    ∧ (generate s t t').2.nodeID = s.nodeID
    ∧ 0 ≤ (generate s t t').2.sequence ∧ (generate s t t').2.sequence ≤ 4095
    ∧ epoch ≤ (generate s t t').2.lastTimestamp
    ∧ s.lastTimestamp ≤ (generate s t t').2.lastTimestamp := by
  have hmask : ((s.sequence + 1).toNat &&& 4095 : Nat)
      = (s.sequence + 1).toNat % 4096 := by
    have h12 : (4095 : Nat) = 2 ^ 12 - 1 := by norm_num
    rw [h12, Nat.and_pow_two_sub_one_eq_mod]
  have hseqNat : (s.sequence + 1).toNat = s.sequence.toNat + 1 := by omega
  have hold := encodeId_eq s.lastTimestamp s.nodeID s.sequence he hn0 hn1 hq0 hq1
  by_cases heq : t = s.lastTimestamp
  · by_cases hz : ((((s.sequence + 1).toNat &&& 4095 : Nat)) : Int) = 0
    · have hgen : generate s t t' = (encodeId t' s.nodeID 0, ⟨t', s.nodeID, 0⟩) := by
        unfold generate
        rw [if_pos heq, if_pos hz, hz]
      rw [hgen]
      dsimp only
      have hnew := encodeId_eq t' s.nodeID 0 (by omega) hn0 hn1 (by omega) (by omega)
      refine ⟨?_, by rw [hnew], rfl, by omega, by omega, by omega, by omega⟩
      rw [hold, hnew]
      nlinarith [ht', hq1]
    · have hgen : generate s t t'
          = (encodeId t s.nodeID ((((s.sequence + 1).toNat &&& 4095 : Nat)) : Int),
             ⟨t, s.nodeID, ((((s.sequence + 1).toNat &&& 4095 : Nat)) : Int)⟩) := by
        unfold generate
        rw [if_pos heq, if_neg hz]
      have hval : ((((s.sequence + 1).toNat &&& 4095 : Nat)) : Int) = s.sequence + 1 := by
        rcases Nat.lt_or_ge (s.sequence.toNat + 1) 4096 with h | h
        · rw [hmask, hseqNat, Nat.mod_eq_of_lt h]
          omega
        · exfalso
          apply hz
          rw [hmask, hseqNat]
          have h46 : s.sequence.toNat + 1 = 4096 := by omega
          rw [h46]
          norm_num
      rw [hgen]
      dsimp only
      rw [hval]
      have hnew := encodeId_eq t s.nodeID (s.sequence + 1) (by omega) hn0 hn1
        (by omega) (by omega)
      refine ⟨?_, by rw [hnew], rfl, by omega, by omega, by omega, by omega⟩
      rw [hold, hnew, heq]
      omega
  · have htlt : s.lastTimestamp < t := lt_of_le_of_ne ht (fun h => heq h.symm)
    have hgen : generate s t t' = (encodeId t s.nodeID 0, ⟨t, s.nodeID, 0⟩) := by
      unfold generate
      rw [if_neg heq]
    rw [hgen]
    dsimp only
    have hnew := encodeId_eq t s.nodeID 0 (by omega) hn0 hn1 (by omega) (by omega)
    refine ⟨?_, by rw [hnew], rfl, by omega, by omega, by omega, by omega⟩
    rw [hold, hnew]
    nlinarith [htlt, hq1]

/-- C7 counterexample: at `ip = "127.0.0.1"`, `port = "8080"`, the code's
node identifier (FNV mod `maxNodeID = 1023`, giving 222) differs from the
claimed FNV mod `2 ^ 10` (which gives 172). -/
theorem claim_node_id_counterexample :
    getNodeID "127.0.0.1" "8080" ≠ (fnv1a32 "127.0.0.1:8080" : Int) % (2 ^ 10) := by
  decide

/-- C7 (amended): the node identifier used by `GenerateID` equals
FNV-1a-32(ip ++ ":" ++ port) reduced modulo `maxNodeID = 2 ^ 10 - 1 = 1023`
(not modulo `2 ^ 10`), hence ranges over `0..1022` and never attains 1023. -/
theorem claim_node_id_amended (ip port : String) :
    getNodeID ip port = (fnv1a32 (ip ++ ":" ++ port) : Int) % 1023
    ∧ 0 ≤ getNodeID ip port ∧ getNodeID ip port < 1023 := by
  refine ⟨rfl, Int.emod_nonneg _ (by norm_num [maxNodeID]), ?_⟩
  exact Int.emod_lt_of_pos _ (by norm_num [maxNodeID])

/-- C8: on a serialized Snowflake generator with a well-formed state
(10-bit node id, 12-bit sequence, `lastTimestamp` at or after the epoch)
and a non-decreasing millisecond clock (each reading is at least the
stored `lastTimestamp`, and the busy-wait exit reading is strictly later),
two successive `Generate` calls produce strictly increasing IDs —
including the case where the sequence wraps to 0 and the generator
busy-waits for the next millisecond. -/
theorem claim_snowflake_monotonic (s : Snowflake) (t₁ t₁' t₂ t₂' : Int)
    (hn0 : 0 ≤ s.nodeID) (hn1 : s.nodeID ≤ 1023)
    (hq0 : 0 ≤ s.sequence) (hq1 : s.sequence ≤ 4095)
    (he : epoch ≤ s.lastTimestamp)
    (ht₁ : s.lastTimestamp ≤ t₁) (ht₁' : s.lastTimestamp < t₁')
    (ht₂ : (generate s t₁ t₁').2.lastTimestamp ≤ t₂)
    (ht₂' : (generate s t₁ t₁').2.lastTimestamp < t₂') :
    (generate s t₁ t₁').1 < (generate (generate s t₁ t₁').2 t₂ t₂').1 := by
  obtain ⟨h1, h2, h3, h4, h5, h6, h7⟩ :=
    generate_step s t₁ t₁' hn0 hn1 hq0 hq1 he ht₁ ht₁'
  obtain ⟨g1, -, -, -, -, -, -⟩ :=
    generate_step (generate s t₁ t₁').2 t₂ t₂' (by rw [h3]; exact hn0)
      (by rw [h3]; exact hn1) h4 h5 h6 ht₂ ht₂'
  rw [h2]
  exact g1

theorem claim_snowflake_monotonic_witness :
    (generate ⟨1719792000000, 5, 4095⟩ 1719792000000 1719792000001).1
      < (generate (generate ⟨1719792000000, 5, 4095⟩ 1719792000000 1719792000001).2
          1719792000001 1719792000002).1 :=
  claim_snowflake_monotonic ⟨1719792000000, 5, 4095⟩ 1719792000000 1719792000001
    1719792000001 1719792000002 (by decide) (by decide) (by decide) (by decide)
    (by decide) (by decide) (by decide) (by decide) (by decide)

end Snow

namespace Rpc

/-- C4 counterexample: serving `[Foo.Bar, Group.Get]` produces no
responses at all — in particular no response whose `Header.Error` is
`"rpc server: unknown method Foo.Bar"` — and the subsequent valid
`Group.Get` request is never served: `readRequest` returns a nil request
for the unknown method, so `ServeCodec` breaks and closes the connection
instead of answering and continuing. -/
theorem claim_unknown_method_counterexample :
    serveCodec (fun h => h)
      [⟨⟨"Foo.Bar", 1, ""⟩, none⟩, ⟨⟨"Group.Get", 2, ""⟩, none⟩] = []
    ∧ ¬ ∃ r ∈ serveCodec (fun h => h)
        [⟨⟨"Foo.Bar", 1, ""⟩, none⟩, ⟨⟨"Group.Get", 2, ""⟩, none⟩],
        r.Error = "rpc server: unknown method Foo.Bar" := by
  have h0 : serveCodec (fun h => h)
      [⟨⟨"Foo.Bar", 1, ""⟩, none⟩, ⟨⟨"Group.Get", 2, ""⟩, none⟩] = [] := by
    decide
  refine ⟨h0, ?_⟩
  rw [h0]
  rintro ⟨r, hr, -⟩
  exact (List.not_mem_nil r) hr

/-- C4 (amended): when the server reads a request whose ServiceMethod is
none of Group.Get, Group.Insert, Group.Delete, `readRequest` fails with
`"rpc server: unknown method X"` and a nil request, so `ServeCodec`
breaks out of its serve loop and closes the connection: no response is
written for that request, and no subsequent request on the connection is
served.  Well-formed requests before it are each answered. -/
theorem claim_unknown_method_amended (handle : Header → Header) :
    ∀ (good : List RpcMsg) (m : RpcMsg) (rest : List RpcMsg),
      (∀ g ∈ good, g.h.ServiceMethod ∈ knownMethods) →
      m.h.ServiceMethod ∉ knownMethods →
      readRequest m = .error ("rpc server: unknown method " ++ m.h.ServiceMethod)
      ∧ serveCodec handle (good ++ m :: rest) = serveCodec handle good
      ∧ (serveCodec handle good).length = good.length
  | [], m, rest, _, hm => by
    have hr : readRequest m
        = .error ("rpc server: unknown method " ++ m.h.ServiceMethod) := by
      unfold readRequest
      rw [if_neg hm]
    refine ⟨hr, ?_, rfl⟩
    show serveCodec handle (m :: rest) = serveCodec handle []
    unfold serveCodec
    rw [hr]
  | g :: gs, m, rest, hgood, hm => by
    obtain ⟨ih1, ih2, ih3⟩ := claim_unknown_method_amended handle gs m rest
      (fun x hx => hgood x (List.mem_cons_of_mem _ hx)) hm
    have hg : readRequest g = .ok (g.h, g.bodyErr) := by
      unfold readRequest
      rw [if_pos (hgood g (List.mem_cons_self _ _))]
    refine ⟨ih1, ?_, ?_⟩
    · show serveCodec handle (g :: (gs ++ m :: rest)) = serveCodec handle (g :: gs)
      unfold serveCodec
      rw [hg]
      cases g.bodyErr with
      | none => rw [ih2]
      | some e => rw [ih2]
    · show (serveCodec handle (g :: gs)).length = gs.length + 1
      unfold serveCodec
      rw [hg]
      cases g.bodyErr with
      | none => simp [ih3]
      | some e => simp [ih3]

theorem claim_unknown_method_amended_witness :
    readRequest ⟨⟨"Foo.Bar", 2, ""⟩, none⟩
        = .error ("rpc server: unknown method " ++ "Foo.Bar")
    ∧ serveCodec (fun h => h)
        ([⟨⟨"Group.Get", 1, ""⟩, none⟩] ++ ⟨⟨"Foo.Bar", 2, ""⟩, none⟩
          :: [⟨⟨"Group.Delete", 3, ""⟩, none⟩])
        = serveCodec (fun h => h) [⟨⟨"Group.Get", 1, ""⟩, none⟩]
    ∧ (serveCodec (fun h => h) [⟨⟨"Group.Get", 1, ""⟩, none⟩]).length
        = ([⟨⟨"Group.Get", 1, ""⟩, none⟩] : List RpcMsg).length :=
  claim_unknown_method_amended (fun h => h) [⟨⟨"Group.Get", 1, ""⟩, none⟩]
    ⟨⟨"Foo.Bar", 2, ""⟩, none⟩ [⟨⟨"Group.Delete", 3, ""⟩, none⟩]
    (by decide) (by decide)

/-- C10: whatever Option list a caller hands to `Dial`, `DialHTTP` or
`XDial` (all of which funnel through `dialTimeout` → `parseOptions`), any
Option that survives parsing has its MagicNumber overwritten with the
protocol constant `0x3bef5c` (and an empty CodecType replaced by the
default Gob codec), so the handshake option transmitted by these entry
points always passes the server's magic-number check. -/
theorem claim_parse_options_magic (opts : List (Option Opt)) (o : Opt)
    (h : parseOptions opts = .ok o) :
    o.MagicNumber = 0x3bef5c
    ∧ serverAcceptsMagic o = true
    ∧ o.CodecType ≠ "" := by
  match opts, h with
  | [], h =>
    have ho : o = DefaultOption := by
      simpa [parseOptions] using h.symm
    subst ho
    exact ⟨rfl, rfl, by simp [DefaultOption, GobType]⟩
  | none :: _, h =>
    have ho : o = DefaultOption := by
      simpa [parseOptions] using h.symm
    subst ho
    exact ⟨rfl, rfl, by simp [DefaultOption, GobType]⟩
  | some o₀ :: rest, h =>
    simp only [parseOptions] at h
    by_cases hr : rest.length ≠ 0
    · rw [if_pos hr] at h
      exact absurd h (by simp)
    · rw [if_neg hr] at h
      have ho : o = { o₀ with
          MagicNumber := DefaultOption.MagicNumber
          CodecType := if o₀.CodecType = "" then DefaultOption.CodecType
            else o₀.CodecType } := by
        simpa using h.symm
      subst ho
      refine ⟨rfl, rfl, ?_⟩
      by_cases hc : o₀.CodecType = ""
      · simp [hc, DefaultOption, GobType]
      · simp [hc]

theorem claim_parse_options_magic_witness :
    (⟨0x3bef5c, "application/gob", 7, 0⟩ : Opt).MagicNumber = 0x3bef5c
    ∧ serverAcceptsMagic ⟨0x3bef5c, "application/gob", 7, 0⟩ = true
    ∧ (⟨0x3bef5c, "application/gob", 7, 0⟩ : Opt).CodecType ≠ "" :=
  claim_parse_options_magic [some ⟨0, "", 7, 0⟩]
    ⟨0x3bef5c, "application/gob", 7, 0⟩ rfl

end Rpc

namespace Reg

/-- C9: for every request to the registry handler, a GET response (status
200) carries the `X-Geerpc-Servers` header holding the comma-joined,
lexicographically sorted list of exactly those peers whose last-seen is
within the TTL window (`timeout = 0` disables expiry); a POST or DELETE
with an empty `X-Geerpc-Server` header returns status 500; and any other
method returns status 405. -/
theorem claim_registry_http (r : Registry) (req : HttpReq) (now : Int) :
    (req.method = "GET" →
      (serveHTTP r req now).2.status = 200
      ∧ ∃ l, (serveHTTP r req now).2.servers = some (String.intercalate "," l)
          ∧ l.Sorted (· ≤ ·)
          ∧ ∀ p, p ∈ l ↔ ∃ t, (p, t) ∈ r.timeMap
              ∧ (r.timeout = 0 ∨ now < t + r.timeout))
    ∧ (req.method = "POST" → req.serverHeader = "" →
        (serveHTTP r req now).2.status = 500)
    ∧ (req.method = "DELETE" → req.serverHeader = "" →
        (serveHTTP r req now).2.status = 500)
    ∧ (req.method ≠ "GET" → req.method ≠ "POST" → req.method ≠ "DELETE" →
        (serveHTTP r req now).2.status = 405) := by
  refine ⟨?_, ?_, ?_, ?_⟩
  · intro hm
    unfold serveHTTP
    rw [if_pos hm]
    refine ⟨rfl, (aliveServers r now).1, rfl, ?_, ?_⟩
    · show ((r.timeMap.filter (aliveFilter r.timeout now)).map
        (fun e => e.1)).insertionSort (· ≤ ·) |>.Sorted (· ≤ ·)
      exact List.sorted_insertionSort _ _
    · intro p
      show p ∈ ((r.timeMap.filter (aliveFilter r.timeout now)).map
          (fun e => e.1)).insertionSort (· ≤ ·) ↔ _
      rw [List.mem_insertionSort, List.mem_map]
      constructor
      · rintro ⟨⟨q, t⟩, hmem, rfl⟩
        obtain ⟨hin, hal⟩ := List.mem_filter.mp hmem
        refine ⟨t, hin, ?_⟩
        unfold aliveFilter at hal
        simpa [decide_eq_true_eq] using hal
      · rintro ⟨t, hin, hal⟩
        refine ⟨(p, t), List.mem_filter.mpr ⟨hin, ?_⟩, rfl⟩
        unfold aliveFilter
        simpa [decide_eq_true_eq] using hal
  · intro hm hs
    unfold serveHTTP
    rw [if_neg (by rw [hm]; decide), if_pos hm, if_pos hs]
  · intro hm hs
    unfold serveHTTP
    rw [if_neg (by rw [hm]; decide), if_neg (by rw [hm]; decide),
      if_pos hm, if_pos hs]
  · intro h1 h2 h3
    unfold serveHTTP
    rw [if_neg h1, if_neg h2, if_neg h3]

theorem claim_registry_http_witness :
    ((serveHTTP ⟨300, [("b", 0), ("a", 0)], CHash.ringNew 10 (fun _ => 0)⟩
        ⟨"GET", ""⟩ 100).2.status = 200
      ∧ ∃ l, (serveHTTP ⟨300, [("b", 0), ("a", 0)], CHash.ringNew 10 (fun _ => 0)⟩
            ⟨"GET", ""⟩ 100).2.servers = some (String.intercalate "," l)
          ∧ l.Sorted (· ≤ ·)
          ∧ ∀ p, p ∈ l ↔ ∃ t, (p, t) ∈ [(("b" : String), (0 : Int)), ("a", 0)]
              ∧ ((300 : Int) = 0 ∨ (100 : Int) < t + 300))
    ∧ (serveHTTP ⟨300, [], CHash.ringNew 10 (fun _ => 0)⟩ ⟨"POST", ""⟩ 100).2.status = 500
    ∧ (serveHTTP ⟨300, [], CHash.ringNew 10 (fun _ => 0)⟩ ⟨"DELETE", ""⟩ 100).2.status = 500
    ∧ (serveHTTP ⟨300, [], CHash.ringNew 10 (fun _ => 0)⟩ ⟨"PUT", ""⟩ 100).2.status = 405 :=
  ⟨(claim_registry_http ⟨300, [("b", 0), ("a", 0)], CHash.ringNew 10 (fun _ => 0)⟩
      ⟨"GET", ""⟩ 100).1 rfl,
   (claim_registry_http ⟨300, [], CHash.ringNew 10 (fun _ => 0)⟩
      ⟨"POST", ""⟩ 100).2.1 rfl rfl,
   (claim_registry_http ⟨300, [], CHash.ringNew 10 (fun _ => 0)⟩
      ⟨"DELETE", ""⟩ 100).2.2.1 rfl rfl,
   (claim_registry_http ⟨300, [], CHash.ringNew 10 (fun _ => 0)⟩
      ⟨"PUT", ""⟩ 100).2.2.2 (by decide) (by decide) (by decide)⟩

end Reg

namespace SF

theorem forall_mem_set {P : TSt → Prop} {l : List TSt} {i : Nat} {x : TSt}
    (hall : ∀ st ∈ l, P st) (hx : P x) : ∀ st ∈ l.set i x, P st :=
  fun st hst => (List.mem_or_eq_of_mem_set hst).elim (hall st) (fun h => h ▸ hx)

theorem mem_set_of_getElem?_ne {l : List TSt} {i : Nat} {x y : TSt}
    (hmem : y ∈ l) (hi : l[i]? ≠ some y) : y ∈ l.set i x := by
  obtain ⟨j, hj⟩ := List.mem_iff_getElem?.mp hmem
  have hij : i ≠ j := fun h => hi (h ▸ hj)
  exact List.mem_iff_getElem?.mpr ⟨j, by rw [List.getElem?_set_ne hij]; exact hj⟩

theorem uniqueRun_set_of_ne {l : List TSt} {i : Nat} {x : TSt}
    (h : uniqueRun l) (hx : x ≠ TSt.run 0) : uniqueRun (l.set i x) := by
  intro a b ha hb
  rw [List.getElem?_set] at ha hb
  split at ha
  · split at ha
    · exact absurd (Option.some_inj.mp ha) hx
    · cases ha
  · split at hb
    · split at hb
      · exact absurd (Option.some_inj.mp hb) hx
      · cases hb
    · exact h a b ha hb

theorem not_mem_set_of_uniqueRun {l : List TSt} {i : Nat} {x : TSt}
    (hu : uniqueRun l) (hi : l[i]? = some (TSt.run 0)) (hx : x ≠ TSt.run 0) :
    TSt.run 0 ∉ l.set i x := by
  intro hmem
  obtain ⟨j, hj⟩ := List.mem_iff_getElem?.mp hmem
  rw [List.getElem?_set] at hj
  split at hj
  · split at hj
    · exact hx (Option.some_inj.mp hj)
    · cases hj
  · next hij => exact hij (hu i j hi hj)

theorem mem_of_getElem?_status {l : List TSt} {i : Nat} {st : TSt}
    (h : l[i]? = some st) : st ∈ l :=
  List.mem_iff_getElem?.mpr ⟨i, h⟩

/-- Any enabled step keeps the number of caller threads. -/
theorem step_threads_length {s s' : SFState} {e : Ev}
    (hstep : step s e = some s') : s'.threads.length = s.threads.length := by
  cases e <;> unfold step at hstep <;>
    (repeat' split at hstep) <;> cases hstep <;> simp

theorem runTrace_threads_length :
    ∀ (t : List Ev) (s s' : SFState), runTrace s t = some s' →
      s'.threads.length = s.threads.length
  | [], s, s', h => by
    unfold runTrace at h
    injection h with h'
    subst h'
    rfl
  | e :: es, s, s', h => by
    unfold runTrace at h
    cases hs : step s e with
    | none => rw [hs] at h; cases h
    | some s₁ =>
      rw [hs] at h
      rw [runTrace_threads_length es s₁ s' h, step_threads_length hs]

theorem runTrace_cons (s : SFState) (e : Ev) (t : List Ev) :
    runTrace s (e :: t) = (step s e).bind (fun s' => runTrace s' t) := by
  conv_lhs => unfold runTrace
  cases step s e <;> rfl

theorem runTrace_append (t₁ t₂ : List Ev) :
    ∀ s : SFState, runTrace s (t₁ ++ t₂)
      = (runTrace s t₁).bind (fun s₁ => runTrace s₁ t₂) := by
  induction t₁ with
  | nil => intro s; rfl
  | cons e es ih =>
    intro s
    rw [List.cons_append, runTrace_cons, runTrace_cons]
    cases hs : step s e with
    | none => rfl
    | some s₁ => simpa using ih s₁

/-- Any event other than `del` preserves the enter-phase invariant. -/
theorem step_inv1 {s s' : SFState} {e : Ev} (hstep : step s e = some s')
    (hnd : ∀ i : Nat, e ≠ Ev.del i) (h : Inv1 s) : Inv1 s' := by
  cases e with
  | del i => exact absurd rfl (hnd i)
  | enter i =>
    unfold step at hstep
    cases hth : s.threads[i]? with
    | none => simp only [hth] at hstep; cases hstep
    | some st =>
      cases st with
      | idle =>
        cases hin : s.inflight with
        | some c =>
          simp only [hth, hin] at hstep
          injection hstep with h'
          subst h'
          rcases h with ⟨hA1, hA2, hA3, hA4⟩ | ⟨k1, k2, k3, k4, k5⟩ | ⟨k1, k2, k3, k4, k5⟩
          · rw [hA1] at hin; cases hin
          · rw [k1] at hin
            injection hin with hc0
            subst hc0
            refine Or.inr (Or.inl ⟨rfl, k2, k3, ?_, ?_⟩)
            · exact forall_mem_set k4 (Or.inr (Or.inr rfl))
            · exact uniqueRun_set_of_ne k5 (by simp)
          · rw [k1] at hin
            injection hin with hc0
            subst hc0
            refine Or.inr (Or.inr ⟨rfl, k2, k3, ?_, ?_⟩)
            · exact forall_mem_set k4 (Or.inr (Or.inr (Or.inl rfl)))
            · exact mem_set_of_getElem?_ne k5 (by rw [hth]; simp)
        | none =>
          simp only [hth, hin] at hstep
          injection hstep with h'
          subst h'
          rcases h with ⟨hA1, hA2, hA3, hA4⟩ | ⟨k1, k2, k3, k4, k5⟩ | ⟨k1, k2, k3, k4, k5⟩
          · have hlen : s.cells.length = 0 := by rw [hA2]; rfl
            refine Or.inr (Or.inl ⟨?_, ?_, hA3, ?_, ?_⟩)
            · show some s.cells.length = some 0
              rw [hlen]
            · show s.cells ++ [none] = [none]
              rw [hA2]; rfl
            · rw [hlen]
              exact forall_mem_set (fun st hst => Or.inl (hA4 st hst))
                (Or.inr (Or.inl rfl))
            · rw [hlen]
              intro a b ha hb
              rw [List.getElem?_set] at ha hb
              split at ha
              · split at hb
                · omega
                · have := hA4 _ (mem_of_getElem?_status hb)
                  cases this
              · have := hA4 _ (mem_of_getElem?_status ha)
                cases this
          · rw [k1] at hin; cases hin
          · rw [k1] at hin; cases hin
      | run c => simp only [hth] at hstep; cases hstep
      | post c => simp only [hth] at hstep; cases hstep
      | retp c => simp only [hth] at hstep; cases hstep
      | wait c => simp only [hth] at hstep; cases hstep
      | done v => simp only [hth] at hstep; cases hstep
  | exec i =>
    unfold step at hstep
    cases hth : s.threads[i]? with
    | none => simp only [hth] at hstep; cases hstep
    | some st =>
      cases st with
      | run c =>
        rcases h with ⟨hA1, hA2, hA3, hA4⟩ | ⟨k1, k2, k3, k4, k5⟩ | ⟨k1, k2, k3, k4, k5⟩
        · have := hA4 _ (mem_of_getElem?_status hth)
          cases this
        · simp only [hth] at hstep
          injection hstep with h'
          subst h'
          have hc0 : c = 0 := by
            rcases k4 _ (mem_of_getElem?_status hth) with h1 | h1 | h1
            · cases h1
            · injection h1
            · cases h1
          subst hc0
          refine Or.inr (Or.inr ⟨k1, ?_, ?_, ?_, ?_⟩)
          · show s.cells.set 0 (some s.execCount) = [some 0]
            rw [k2, k3]; rfl
          · show s.execCount + 1 = 1
            rw [k3]
          · intro st hst
            rcases List.mem_or_eq_of_mem_set hst with hmem | rfl
            · rcases k4 st hmem with h1 | h1 | h1
              · exact Or.inl h1
              · subst h1
                exact absurd hst (not_mem_set_of_uniqueRun k5 hth (by simp))
              · exact Or.inr (Or.inr (Or.inl h1))
            · exact Or.inr (Or.inl rfl)
          · have hlt : i < s.threads.length := by
              by_contra hge
              rw [List.getElem?_eq_none (by omega)] at hth
              cases hth
            exact List.mem_set _ _ hlt _
        · have := k4 _ (mem_of_getElem?_status hth)
          rcases this with h1 | h1 | h1 | h1 <;> cases h1
      | idle => simp only [hth] at hstep; cases hstep
      | post c => simp only [hth] at hstep; cases hstep
      | retp c => simp only [hth] at hstep; cases hstep
      | wait c => simp only [hth] at hstep; cases hstep
      | done v => simp only [hth] at hstep; cases hstep
  | ret i =>
    unfold step at hstep
    cases hth : s.threads[i]? with
    | none => simp only [hth] at hstep; cases hstep
    | some st =>
      cases st with
      | retp c =>
        rcases h with ⟨hA1, hA2, hA3, hA4⟩ | ⟨k1, k2, k3, k4, k5⟩ | ⟨k1, k2, k3, k4, k5⟩
        · have := hA4 _ (mem_of_getElem?_status hth)
          cases this
        · rcases k4 _ (mem_of_getElem?_status hth) with h1 | h1 | h1 <;> cases h1
        · rcases k4 _ (mem_of_getElem?_status hth) with h1 | h1 | h1 | h1 <;> cases h1
      | wait c =>
        rcases h with ⟨hA1, hA2, hA3, hA4⟩ | ⟨k1, k2, k3, k4, k5⟩ | ⟨k1, k2, k3, k4, k5⟩
        · have := hA4 _ (mem_of_getElem?_status hth)
          cases this
        · have hc0 : c = 0 := by
            rcases k4 _ (mem_of_getElem?_status hth) with h1 | h1 | h1
            · cases h1
            · cases h1
            · injection h1
          subst hc0
          have hcell : s.cells[0]? = some none := by rw [k2]; rfl
          simp only [hth, hcell] at hstep
          cases hstep
        · have hc0 : c = 0 := by
            rcases k4 _ (mem_of_getElem?_status hth) with h1 | h1 | h1 | h1
            · cases h1
            · cases h1
            · injection h1
            · cases h1
          subst hc0
          have hcell : s.cells[0]? = some (some 0) := by rw [k2]; rfl
          simp only [hth, hcell] at hstep
          injection hstep with h'
          subst h'
          refine Or.inr (Or.inr ⟨k1, k2, k3, ?_, ?_⟩)
          · exact forall_mem_set k4 (Or.inr (Or.inr (Or.inr rfl)))
          · exact mem_set_of_getElem?_ne k5 (by rw [hth]; simp)
      | idle => simp only [hth] at hstep; cases hstep
      | run c => simp only [hth] at hstep; cases hstep
      | post c =>
        rcases h with ⟨hA1, hA2, hA3, hA4⟩ | ⟨k1, k2, k3, k4, k5⟩ | ⟨k1, k2, k3, k4, k5⟩
        · have := hA4 _ (mem_of_getElem?_status hth)
          cases this
        · rcases k4 _ (mem_of_getElem?_status hth) with h1 | h1 | h1 <;> cases h1
        · simp only [hth] at hstep
          cases hstep
      | done v => simp only [hth] at hstep; cases hstep

/-- Any event other than `enter` preserves the drain-phase invariant. -/
theorem step_inv2 {s s' : SFState} {e : Ev} (hstep : step s e = some s')
    (hne : ∀ i : Nat, e ≠ Ev.enter i) (h : Inv2 s) : Inv2 s' := by
  cases e with
  | enter i => exact absurd rfl (hne i)
  | exec i =>
    rcases h with h1 | ⟨k1, k2, k3, k4⟩
    · exact Or.inl (step_inv1 hstep (fun j => by simp) h1)
    · unfold step at hstep
      cases hth : s.threads[i]? with
      | none => simp only [hth] at hstep; cases hstep
      | some st =>
        cases st with
        | run c =>
          rcases k4 _ (mem_of_getElem?_status hth) with h1 | h1 | h1 | h1 | h1 <;>
            cases h1
        | idle => simp only [hth] at hstep; cases hstep
        | post c => simp only [hth] at hstep; cases hstep
        | retp c => simp only [hth] at hstep; cases hstep
        | wait c => simp only [hth] at hstep; cases hstep
        | done v => simp only [hth] at hstep; cases hstep
  | del i =>
    unfold step at hstep
    cases hth : s.threads[i]? with
    | none => simp only [hth] at hstep; cases hstep
    | some st =>
      cases st with
      | post c =>
        simp only [hth] at hstep
        injection hstep with h'
        subst h'
        rcases h with (⟨hA1, hA2, hA3, hA4⟩ | ⟨k1, k2, k3, k4, k5⟩ | ⟨k1, k2, k3, k4, k5⟩)
            | ⟨k1, k2, k3, k4⟩
        · have := hA4 _ (mem_of_getElem?_status hth)
          cases this
        · rcases k4 _ (mem_of_getElem?_status hth) with h1 | h1 | h1 <;> cases h1
        · have hc0 : c = 0 := by
            rcases k4 _ (mem_of_getElem?_status hth) with h1 | h1 | h1 | h1
            · cases h1
            · injection h1
            · cases h1
            · cases h1
          subst hc0
          refine Or.inr ⟨rfl, k2, k3, ?_⟩
          exact forall_mem_set
            (fun st hst => by
              rcases k4 st hst with h1 | h1 | h1 | h1
              · exact Or.inl h1
              · exact Or.inr (Or.inr (Or.inl h1))
              · exact Or.inr (Or.inl h1)
              · exact Or.inr (Or.inr (Or.inr (Or.inr h1))))
            (Or.inr (Or.inr (Or.inr (Or.inl rfl))))
        · have hc0 : c = 0 := by
            rcases k4 _ (mem_of_getElem?_status hth) with h1 | h1 | h1 | h1 | h1
            · cases h1
            · cases h1
            · injection h1
            · cases h1
            · cases h1
          subst hc0
          refine Or.inr ⟨rfl, k2, k3, ?_⟩
          exact forall_mem_set k4 (Or.inr (Or.inr (Or.inr (Or.inl rfl))))
      | idle => simp only [hth] at hstep; cases hstep
      | run c => simp only [hth] at hstep; cases hstep
      | retp c => simp only [hth] at hstep; cases hstep
      | wait c => simp only [hth] at hstep; cases hstep
      | done v => simp only [hth] at hstep; cases hstep
  | ret i =>
    rcases h with h1 | ⟨k1, k2, k3, k4⟩
    · exact Or.inl (step_inv1 hstep (fun j => by simp) h1)
    · unfold step at hstep
      cases hth : s.threads[i]? with
      | none => simp only [hth] at hstep; cases hstep
      | some st =>
        cases st with
        | retp c =>
          have hc0 : c = 0 := by
            rcases k4 _ (mem_of_getElem?_status hth) with h1 | h1 | h1 | h1 | h1
            · cases h1
            · cases h1
            · cases h1
            · injection h1
            · cases h1
          subst hc0
          have hcell : s.cells[0]? = some (some 0) := by rw [k2]; rfl
          simp only [hth, hcell] at hstep
          injection hstep with h'
          subst h'
          refine Or.inr ⟨k1, k2, k3, ?_⟩
          exact forall_mem_set k4 (Or.inr (Or.inr (Or.inr (Or.inr rfl))))
        | wait c =>
          have hc0 : c = 0 := by
            rcases k4 _ (mem_of_getElem?_status hth) with h1 | h1 | h1 | h1 | h1
            · cases h1
            · injection h1
            · cases h1
            · cases h1
            · cases h1
          subst hc0
          have hcell : s.cells[0]? = some (some 0) := by rw [k2]; rfl
          simp only [hth, hcell] at hstep
          injection hstep with h'
          subst h'
          refine Or.inr ⟨k1, k2, k3, ?_⟩
          exact forall_mem_set k4 (Or.inr (Or.inr (Or.inr (Or.inr rfl))))
        | idle => simp only [hth] at hstep; cases hstep
        | run c => simp only [hth] at hstep; cases hstep
        | post c => simp only [hth] at hstep; cases hstep
        | done v => simp only [hth] at hstep; cases hstep

theorem runTrace_inv1 :
    ∀ (t : List Ev) (s s' : SFState), runTrace s t = some s' →
      (∀ e ∈ t, ∀ i : Nat, e ≠ Ev.del i) → Inv1 s → Inv1 s'
  | [], s, s', hr, _, h => by
    unfold runTrace at hr
    injection hr with h'
    subst h'
    exact h
  | e :: es, s, s', hr, hnd, h => by
    rw [runTrace_cons] at hr
    cases hs : step s e with
    | none => rw [hs] at hr; cases hr
    | some s₁ =>
      rw [hs] at hr
      exact runTrace_inv1 es s₁ s' hr
        (fun e' he' => hnd e' (List.mem_cons_of_mem _ he'))
        (step_inv1 hs (hnd e (List.mem_cons_self _ _)) h)

theorem runTrace_inv2 :
    ∀ (t : List Ev) (s s' : SFState), runTrace s t = some s' →
      (∀ e ∈ t, ∀ i : Nat, e ≠ Ev.enter i) → Inv2 s → Inv2 s'
  | [], s, s', hr, _, h => by
    unfold runTrace at hr
    injection hr with h'
    subst h'
    exact h
  | e :: es, s, s', hr, hne, h => by
    rw [runTrace_cons] at hr
    cases hs : step s e with
    | none => rw [hs] at hr; cases hr
    | some s₁ =>
      rw [hs] at hr
      exact runTrace_inv2 es s₁ s' hr
        (fun e' he' => hne e' (List.mem_cons_of_mem _ he'))
        (step_inv2 hs (hne e (List.mem_cons_self _ _)) h)

/-- C1 counterexample: two callers each invoke `Do(k, thunk)` while the
entry for `k` is cold (the in-flight marker is absent at both `enter`
events — at the start, and again after caller 0's `del` removed it), and
the two invocations are concurrent (caller 0 only returns at the 7th
event, after caller 1 entered at the 4th).  Yet the thunk executes twice
(`execCount = 2`), and the callers receive different results (`done 0`
vs `done 1`) — refuting "executes exactly once" and "all N callers
receive the identical pair" for this interleaving. -/
theorem claim_singleflight_counterexample :
    runTrace (init 2) [Ev.enter 0, Ev.exec 0, Ev.del 0, Ev.enter 1, Ev.exec 1,
        Ev.del 1, Ev.ret 0, Ev.ret 1]
      = some ⟨none, [some 0, some 1], 2, [TSt.done 0, TSt.done 1]⟩
    ∧ (runTrace (init 2) [Ev.enter 0, Ev.exec 0, Ev.del 0]).map (fun s => s.inflight)
      = some none
    ∧ (init 2).inflight = none
    ∧ (2 : Nat) ≠ 1 ∧ TSt.done 0 ≠ TSt.done 1 :=
  ⟨by decide, by decide, rfl, by decide, by decide⟩

/-- C1 (amended): for every number of callers `N ≥ 1` and every legal
interleaving that decomposes into an enter phase `t₁` (no `del` yet, i.e.
every lookup happens before the first caller removes the in-flight
marker — all callers join one generation) followed by a drain phase `t₂`
(no further `enter`), if every caller has returned, then the thunk
executed exactly once, every caller received the identical value of that
single execution, and the in-flight marker is gone — in particular it was
removed before the generation's last return. -/
theorem claim_singleflight_amended (N : Nat) (t₁ t₂ : List Ev) (s : SFState)
    (hN : 1 ≤ N)
    (hrun : runTrace (init N) (t₁ ++ t₂) = some s)
    (h₁ : ∀ e ∈ t₁, ∀ i : Nat, e ≠ Ev.del i)
    (h₂ : ∀ e ∈ t₂, ∀ i : Nat, e ≠ Ev.enter i)
    (hdone : ∀ st ∈ s.threads, ∃ v, st = TSt.done v) :
    s.execCount = 1 ∧ (∀ st ∈ s.threads, st = TSt.done 0) ∧ s.inflight = none := by
  rw [runTrace_append] at hrun
  cases hr1 : runTrace (init N) t₁ with
  | none => rw [hr1] at hrun; cases hrun
  | some s₁ =>
    rw [hr1] at hrun
    have hInvInit : Inv1 (init N) := by
      refine Or.inl ⟨rfl, rfl, rfl, ?_⟩
      intro st hst
      exact List.eq_of_mem_replicate hst
    have hInv1 : Inv1 s₁ := runTrace_inv1 t₁ _ _ hr1 h₁ hInvInit
    have hInv2 : Inv2 s := runTrace_inv2 t₂ _ _ hrun h₂ (Or.inl hInv1)
    have hlen : s.threads.length = N := by
      rw [runTrace_threads_length t₂ _ _ hrun, runTrace_threads_length t₁ _ _ hr1]
      exact List.length_replicate _ _
    have hne : s.threads ≠ [] := by
      intro hemp
      rw [hemp] at hlen
      simp at hlen
      omega
    obtain ⟨st₀, hst₀⟩ := List.exists_mem_of_ne_nil s.threads hne
    rcases hInv2 with (⟨hA1, hA2, hA3, hA4⟩ | ⟨k1, k2, k3, k4, k5⟩
        | ⟨k1, k2, k3, k4, k5⟩) | ⟨k1, k2, k3, k4⟩
    · obtain ⟨v, hv⟩ := hdone st₀ hst₀
      rw [hA4 st₀ hst₀] at hv
      cases hv
    · obtain ⟨v, hv⟩ := hdone st₀ hst₀
      rcases k4 st₀ hst₀ with h1 | h1 | h1 <;> (rw [h1] at hv; cases hv)
    · obtain ⟨v, hv⟩ := hdone _ k5
      cases hv
    · refine ⟨k3, ?_, k1⟩
      intro st hst
      obtain ⟨v, hv⟩ := hdone st hst
      rcases k4 st hst with h1 | h1 | h1 | h1 | h1
      · rw [h1] at hv; cases hv
      · rw [h1] at hv; cases hv
      · rw [h1] at hv; cases hv
      · rw [h1] at hv; cases hv
      · exact h1

theorem claim_singleflight_amended_witness :
    (⟨none, [some 0], 1, [TSt.done 0, TSt.done 0]⟩ : SFState).execCount = 1
    ∧ (∀ st ∈ (⟨none, [some 0], 1, [TSt.done 0, TSt.done 0]⟩ : SFState).threads,
        st = TSt.done 0)
    ∧ (⟨none, [some 0], 1, [TSt.done 0, TSt.done 0]⟩ : SFState).inflight = none :=
  claim_singleflight_amended 2 [Ev.enter 0, Ev.enter 1, Ev.exec 0]
    [Ev.del 0, Ev.ret 0, Ev.ret 1] ⟨none, [some 0], 1, [TSt.done 0, TSt.done 0]⟩
    (by decide) (by decide)
    (by rintro e he i rfl; simp at he)
    (by rintro e he i rfl; simp at he)
    (by
      intro st hst
      rcases List.mem_cons.mp hst with rfl | hst'
      · exact ⟨0, rfl⟩
      · rcases List.mem_cons.mp hst' with rfl | hst''
        · exact ⟨0, rfl⟩
        · cases hst'')

end SF

end DCache
